import Mathlib

/-!
Verification of the distributed computation-client core of the s4tf x10
runtime (`Sources/x10/xla_client/xrt_computation_client.cc`), as a shallow
embedding in Lean.  Pure algorithms (batch partitioning, device-string
resolution, chained-plan construction) are translated directly; stateful
and RPC-performing code is embedded with explicit state passing, with the
remote server's per-feed responses abstracted as function parameters.
-/

/-- Shapes as used by the client: an array shape with an element byte size
and dimensions, or a tuple of shapes (mirrors `xla::Shape` as consumed by
the client code, which only ever inspects element byte sizes, dimensions
and tuple structure). -/
inductive XlaShape where
  | array (elemBytes : Nat) (dims : List Nat)
  | tuple (elems : List XlaShape)

/-- Embedding of `ShapeUtil::ByteSizeOfElements` for the array shapes fed to
the transfer engine (the source CHECK-fails on tuple shapes; transfers only
ever pass array shapes, so the tuple case is arbitrary here). -/
def byteSizeOfElements : XlaShape → Nat
  | .array elemBytes dims => elemBytes * dims.prod
  | .tuple _ => 0

/-- A `TensorSource` as consumed by the transfer path: the client code only
uses its shape (for sizing and session-node selection) and its populate
callback (whose output never influences control flow), so the embedding
keeps the shape. -/
structure TensorSource where
  shape : XlaShape

/-- Default of `GetMaxTensorsPartitionSize` (`XRT_MAX_TENSORS_PARTITION`,
line 505 of the source). -/
def defaultMaxTensorsPartitionSize : Nat := 1800000000

/-- Loop of `XrtComputationClient::PartitionTransferToServer` (lines
645-655): walks the byte sizes accumulating `currentSize`, starting a new
partition boundary whenever adding the next tensor would exceed the
ceiling. -/
def partitionAux (maxSize : Nat) : List Nat → Nat → Nat → List Nat → List Nat
  | [], _, _, partitions => partitions
  | tensorSize :: rest, i, currentSize, partitions =>
    if currentSize + tensorSize > maxSize then
      let partitions1 := if partitions.isEmpty ∧ 0 < i then partitions ++ [0] else partitions
      partitionAux maxSize rest (i + 1) tensorSize (partitions1 ++ [i])
    else
      partitionAux maxSize rest (i + 1) (currentSize + tensorSize) partitions

/-- Embedding of `XrtComputationClient::PartitionTransferToServer` (lines
640-660): returns the list of partition start indices. -/
def partitionTransferToServer (maxSize : Nat) (tensors : List TensorSource) : List Nat :=
  let ps := partitionAux maxSize (tensors.map fun t => byteSizeOfElements t.shape) 0 0 []
  if ps.isEmpty then [0] else ps

/-- The partition ranges denoted by a boundary list: boundary `j` starts a
partition that ends at boundary `j + 1` (or at `n`, the tensor count, for
the last boundary). -/
def chunksOf : List Nat → Nat → List (Nat × Nat)
  | [], _ => []
  | [b], n => [(b, n)]
  | b :: b2 :: rest, n => (b, b2) :: chunksOf (b2 :: rest) n

/-- Summed byte size of the tensors in the half-open index range `[b, e)`. -/
def chunkSum (sizes : List Nat) (b e : Nat) : Nat :=
  ((sizes.drop b).take (e - b)).sum

/-- A partition range is good when it holds at most one tensor or its
summed size is within the ceiling. -/
def goodChunk (sizes : List Nat) (maxSize : Nat) (p : Nat × Nat) : Prop :=
  p.2 ≤ p.1 + 1 ∨ chunkSum sizes p.1 p.2 ≤ maxSize

/-- Start index of the partition currently being accumulated: the last
boundary pushed so far, `0` when none was. -/
def lastBoundary (ps : List Nat) : Nat := ps.getLastD 0

theorem lastBoundary_concat (ps : List Nat) (x : Nat) :
    lastBoundary (ps ++ [x]) = x := by
  simp [lastBoundary]

theorem chunksOf_concat (ps : List Nat) (b n : Nat) :
    chunksOf (ps ++ [b]) n = chunksOf ps b ++ [(b, n)] := by
  induction ps with
  | nil => simp [chunksOf]
  | cons a ps ih =>
    cases ps with
    | nil => simp [chunksOf]
    | cons a2 rest => simpa [chunksOf] using ih

theorem chunksOf_endpoint (ps : List Nat) (n n2 : Nat) :
    ∀ p ∈ chunksOf ps n2, p ∈ chunksOf ps n ∨ p = (lastBoundary ps, n2) := by
  induction ps with
  | nil => simp [chunksOf]
  | cons a ps ih =>
    cases ps with
    | nil => simp [chunksOf, lastBoundary]
    | cons a2 rest =>
      intro p hp
      simp only [chunksOf, List.mem_cons] at hp ⊢
      rcases hp with h | h
      · exact Or.inl (Or.inl h)
      · rcases ih p h with h2 | h2
        · exact Or.inl (Or.inr h2)
        · refine Or.inr ?_
          simpa [lastBoundary] using h2

theorem chunkSum_refl (sizes : List Nat) (b : Nat) : chunkSum sizes b b = 0 := by
  simp [chunkSum]

theorem chunkSum_single (sizes : List Nat) (b : Nat) :
    chunkSum sizes b (b + 1) = sizes.getD b 0 := by
  unfold chunkSum
  rcases h : sizes.drop b with _ | ⟨x, rest⟩
  · have hb : sizes.length ≤ b := List.drop_eq_nil_iff.mp h
    simp [List.getD, List.getElem?_eq_none hb]
  · have hx : sizes[b]? = some x := by
      have h0 : (sizes.drop b)[0]? = sizes[b + 0]? := List.getElem?_drop sizes b 0
      rw [h] at h0
      simpa using h0.symm
    simp [List.getD, hx, Nat.add_sub_cancel_left]

theorem chunkSum_succ (sizes : List Nat) (b i : Nat) (hb : b ≤ i)
    (hi : i < sizes.length) :
    chunkSum sizes b (i + 1) = chunkSum sizes b i + sizes.getD i 0 := by
  unfold chunkSum
  have h1 : i + 1 - b = (i - b) + 1 := by omega
  rw [h1, List.take_succ]
  have h2 : (sizes.drop b)[i - b]? = sizes[i]? := by
    rw [List.getElem?_drop]
    congr 1
    omega
  have h3 : sizes[i]? = some sizes[i] := List.getElem?_eq_getElem hi
  simp [h2, h3, List.getD]

theorem partitionAux_good (maxSize : Nat) (sizes : List Nat) :
    ∀ (rest : List Nat) (i cs : Nat) (ps : List Nat),
      sizes.drop i = rest →
      i ≤ sizes.length →
      lastBoundary ps ≤ i →
      cs = chunkSum sizes (lastBoundary ps) i →
      (∀ p ∈ chunksOf ps i, goodChunk sizes maxSize p) →
      goodChunk sizes maxSize (lastBoundary ps, i) →
      (∀ p ∈ chunksOf (partitionAux maxSize rest i cs ps) sizes.length,
        goodChunk sizes maxSize p) ∧
      goodChunk sizes maxSize
        (lastBoundary (partitionAux maxSize rest i cs ps), sizes.length) := by
  intro rest
  induction rest with
  | nil =>
    intro i cs ps hdrop hle hlb hcs hchunks hopen
    have hieq : i = sizes.length := by
      have := List.drop_eq_nil_iff.mp hdrop
      omega
    subst hieq
    exact ⟨by simpa [partitionAux] using hchunks, by simpa [partitionAux] using hopen⟩
  | cons s rest ih =>
    intro i cs ps hdrop hle hlb hcs hchunks hopen
    have hi : i < sizes.length := by
      by_contra h
      have hnil : sizes.drop i = [] := List.drop_eq_nil_iff.mpr (by omega)
      rw [hnil] at hdrop
      exact List.cons_ne_nil _ _ hdrop.symm
    have hs : sizes.getD i 0 = s := by
      have h0 : (sizes.drop i)[0]? = sizes[i + 0]? := List.getElem?_drop sizes i 0
      rw [hdrop] at h0
      simp only [List.getElem?_cons_zero, Nat.add_zero] at h0
      simp [List.getD, h0.symm]
    have hdrop2 : sizes.drop (i + 1) = rest := by
      have := List.tail_drop sizes i
      rw [hdrop] at this
      simpa using this.symm
    simp only [partitionAux]
    by_cases hsplit : cs + s > maxSize
    · rw [if_pos hsplit]
      apply ih (i + 1) s _ hdrop2 (by omega)
      · rw [lastBoundary_concat]; omega
      · rw [lastBoundary_concat, chunkSum_single, hs]
      · intro p hp
        rw [chunksOf_concat] at hp
        rcases List.mem_append.mp hp with hp | hp
        · by_cases hps : ps.isEmpty ∧ 0 < i
          · rw [if_pos hps] at hp
            have hempty : ps = [] := List.isEmpty_iff.mp hps.1
            subst hempty
            simp only [List.nil_append, chunksOf, List.mem_singleton] at hp
            subst hp
            simpa [lastBoundary] using hopen
          · rw [if_neg hps] at hp
            by_cases hnil : ps = []
            · subst hnil; simp [chunksOf] at hp
            · exact hchunks p hp
        · rw [List.mem_singleton] at hp
          subst hp
          exact Or.inl (by omega)
      · rw [lastBoundary_concat]
        exact Or.inl (by omega)
    · rw [if_neg hsplit]
      have hnew : chunkSum sizes (lastBoundary ps) (i + 1) = cs + s := by
        rw [chunkSum_succ sizes _ i hlb hi, hs, hcs]
      apply ih (i + 1) (cs + s) ps hdrop2 (by omega) (by omega) hnew.symm
      · intro p hp
        rcases chunksOf_endpoint ps i (i + 1) p hp with hp2 | hp2
        · exact hchunks p hp2
        · subst hp2
          exact Or.inr (by rw [hnew]; omega)
      · exact Or.inr (by rw [hnew]; omega)

theorem partition_good (maxSize : Nat) (tensors : List TensorSource) :
    ∀ p ∈ chunksOf (partitionTransferToServer maxSize tensors) tensors.length,
      goodChunk (tensors.map fun t => byteSizeOfElements t.shape) maxSize p := by
  have hlen : (tensors.map fun t => byteSizeOfElements t.shape).length = tensors.length :=
    List.length_map _ _
  have h := partitionAux_good maxSize (tensors.map fun t => byteSizeOfElements t.shape)
    (tensors.map fun t => byteSizeOfElements t.shape) 0 0 []
    (by simp) (by omega) (by simp [lastBoundary]) (by simp [lastBoundary, chunkSum_refl])
    (by simp [chunksOf]) (Or.inl (by omega))
  intro p hp
  unfold partitionTransferToServer at hp
  by_cases hnil :
      (partitionAux maxSize (tensors.map fun t => byteSizeOfElements t.shape) 0 0 []).isEmpty
  · rw [if_pos hnil] at hp
    simp only [chunksOf, List.mem_singleton] at hp
    subst hp
    have hempty := List.isEmpty_iff.mp hnil
    rw [hempty] at h
    simpa [lastBoundary, hlen] using h.2
  · rw [if_neg hnil] at hp
    rw [← hlen] at hp
    exact h.1 p hp

/-- C1: for every tensor sequence and ceiling, `PartitionTransferToServer`
never produces a partition whose summed byte size exceeds the ceiling
unless that partition is a single tensor whose size alone exceeds the
ceiling; and 5 tensors each sized at 40 percent of the ceiling are split
into exactly 3 partitions holding 2, 2 and 1 tensors. -/
theorem partition_respects_ceiling :
    (∀ (maxSize : Nat) (tensors : List TensorSource),
      ∀ p ∈ chunksOf (partitionTransferToServer maxSize tensors) tensors.length,
        maxSize < chunkSum (tensors.map fun t => byteSizeOfElements t.shape) p.1 p.2 →
        p.2 = p.1 + 1 ∧
          maxSize < (tensors.map fun t => byteSizeOfElements t.shape).getD p.1 0) ∧
    (partitionTransferToServer 10 (List.replicate 5 ⟨XlaShape.array 1 [4]⟩) = [0, 2, 4] ∧
      chunksOf [0, 2, 4] 5 = [(0, 2), (2, 4), (4, 5)]) := by
  constructor
  · intro maxSize tensors p hp hbig
    have hgood := partition_good maxSize tensors p hp
    have hle : p.2 ≤ p.1 + 1 := by
      rcases hgood with h | h
      · exact h
      · omega
    have heq : p.2 = p.1 + 1 := by
      rcases Nat.lt_or_ge p.1 p.2 with h | h
      · omega
      · exfalso
        have : chunkSum (tensors.map fun t => byteSizeOfElements t.shape) p.1 p.2 = 0 := by
          unfold chunkSum
          have : p.2 - p.1 = 0 := by omega
          simp [this]
        omega
    refine ⟨heq, ?_⟩
    rw [heq, chunkSum_single] at hbig
    exact hbig
  · constructor <;> rfl

theorem partition_respects_ceiling_witness :
    (1 : Nat) = 0 + 1 ∧ (3 : Nat) <
      (([⟨XlaShape.array 1 [5]⟩] : List TensorSource).map
        fun t => byteSizeOfElements t.shape).getD 0 0 := by
  have h := partition_respects_ceiling.1 3 [⟨XlaShape.array 1 [5]⟩] (0, 1)
    (by simp [partitionTransferToServer, partitionAux, byteSizeOfElements, chunksOf])
    (by simp [chunkSum, byteSizeOfElements])
  simpa using h

/-! Generic machinery: result-slot folds (for concurrent writers that each
fill disjoint slots of a shared results vector) and association-list
grouping (for `std::map<XrtSession*, SessionWork>`-style accumulation). -/

theorem foldl_proj_stable {α β γ : Type} (step : α → β → α) (proj : α → γ) (v : γ)
    (P : α → Prop) :
    ∀ (l : List β) (s0 : α),
      (∀ s x, x ∈ l → P s → P (step s x)) →
      (∀ s x, x ∈ l → P s → proj (step s x) = proj s ∨ proj (step s x) = v) →
      P s0 → proj s0 = v → proj (l.foldl step s0) = v := by
  intro l
  induction l with
  | nil => intro s0 _ _ _ hv; simpa using hv
  | cons y l ih =>
    intro s0 hP hstep hP0 hv
    simp only [List.foldl_cons]
    refine ih (step s0 y) (fun s x hx => hP s x (List.mem_cons_of_mem _ hx))
      (fun s x hx => hstep s x (List.mem_cons_of_mem _ hx))
      (hP s0 y (List.mem_cons_self _ _) hP0) ?_
    rcases hstep s0 y (List.mem_cons_self _ _) hP0 with h | h
    · rw [h, hv]
    · exact h

theorem foldl_proj_reach {α β γ : Type} (step : α → β → α) (proj : α → γ) (v : γ)
    (P : α → Prop) :
    ∀ (l : List β) (s0 : α),
      (∀ s x, x ∈ l → P s → P (step s x)) →
      (∀ s x, x ∈ l → P s → proj (step s x) = proj s ∨ proj (step s x) = v) →
      (∃ x ∈ l, ∀ s, P s → proj (step s x) = v) →
      P s0 → proj (l.foldl step s0) = v := by
  intro l
  induction l with
  | nil => intro s0 _ _ hex; exact absurd hex (by simp)
  | cons y l ih =>
    intro s0 hP hstep hex hP0
    simp only [List.foldl_cons]
    rcases hex with ⟨x, hx, hset⟩
    rcases List.mem_cons.mp hx with rfl | hx
    · exact foldl_proj_stable step proj v P l (step s0 x)
        (fun s z hz => hP s z (List.mem_cons_of_mem _ hz))
        (fun s z hz => hstep s z (List.mem_cons_of_mem _ hz))
        (hP s0 x (List.mem_cons_self _ _) hP0) (hset s0 hP0)
    · exact ih (step s0 y) (fun s z hz => hP s z (List.mem_cons_of_mem _ hz))
        (fun s z hz => hstep s z (List.mem_cons_of_mem _ hz))
        ⟨x, hx, hset⟩ (hP s0 y (List.mem_cons_self _ _) hP0)

theorem foldl_proj_frozen {α β γ : Type} (step : α → β → α) (proj : α → γ)
    (P : α → Prop) :
    ∀ (l : List β) (s0 : α),
      (∀ s x, x ∈ l → P s → P (step s x)) →
      (∀ s x, x ∈ l → P s → proj (step s x) = proj s) →
      P s0 → proj (l.foldl step s0) = proj s0 := by
  intro l
  induction l with
  | nil => intro s0 _ _ _; simp
  | cons y l ih =>
    intro s0 hP hstep hP0
    simp only [List.foldl_cons]
    rw [ih (step s0 y) (fun s x hx => hP s x (List.mem_cons_of_mem _ hx))
      (fun s x hx => hstep s x (List.mem_cons_of_mem _ hx))
      (hP s0 y (List.mem_cons_self _ _) hP0)]
    exact hstep s0 y (List.mem_cons_self _ _) hP0

/-- Association-list accumulation: append `v` to the bucket of key `k`,
creating the bucket if absent.  This embeds the per-session accumulation
done through `session_work_map[session]` in the source. -/
def assocUpd {K V : Type} [DecidableEq K] : List (K × List V) → K → V → List (K × List V)
  | [], k, v => [(k, [v])]
  | (k2, vs) :: rest, k, v =>
    if k = k2 then (k2, vs ++ [v]) :: rest
    else (k2, vs) :: assocUpd rest k v

/-- All bucket entries, in bucket order. -/
def groupVals {K V : Type} (m : List (K × List V)) : List V :=
  (m.map Prod.snd).flatten

theorem mem_groupVals_assocUpd {K V : Type} [DecidableEq K]
    (m : List (K × List V)) (k : K) (v x : V) :
    x ∈ groupVals (assocUpd m k v) ↔ x ∈ groupVals m ∨ x = v := by
  induction m with
  | nil => simp [assocUpd, groupVals]
  | cons g rest ih =>
    obtain ⟨k2, vs⟩ := g
    by_cases hk : k = k2
    · simp only [assocUpd, if_pos hk, groupVals, List.map_cons, List.flatten_cons,
        List.mem_append, List.mem_singleton]
      tauto
    · simp only [assocUpd, if_neg hk, groupVals, List.map_cons, List.flatten_cons,
        List.mem_append] at ih ⊢
      tauto

theorem count_groupVals_assocUpd {K V : Type} [DecidableEq K] [DecidableEq V]
    (m : List (K × List V)) (k : K) (v x : V) :
    (groupVals (assocUpd m k v)).count x
      = (groupVals m).count x + if v = x then 1 else 0 := by
  induction m with
  | nil =>
    simp only [assocUpd, groupVals, List.map_cons, List.flatten_cons, List.map_nil,
      List.flatten_nil, List.count_nil, List.append_nil, List.count_singleton]
    by_cases h : v = x <;> simp [h, List.count_cons, beq_iff_eq]
  | cons g rest ih =>
    obtain ⟨k2, vs⟩ := g
    by_cases hk : k = k2
    · simp only [assocUpd, if_pos hk, groupVals, List.map_cons, List.flatten_cons,
        List.count_append, List.count_singleton]
      by_cases h : v = x <;> (simp [h, beq_iff_eq]; try omega)
    · simp only [assocUpd, if_neg hk, groupVals, List.map_cons, List.flatten_cons,
        List.count_append] at ih ⊢
      omega

/-- Build a per-key work map by folding the feeds in arrival order. -/
def groupByKey {K V : Type} [DecidableEq K] (keyOf : V → K) (l : List V) : List (K × List V) :=
  l.foldl (fun m v => assocUpd m (keyOf v) v) []

theorem mem_groupVals_foldUpd {K V : Type} [DecidableEq K] (keyOf : V → K) :
    ∀ (l : List V) (m : List (K × List V)) (x : V),
      x ∈ groupVals (l.foldl (fun m v => assocUpd m (keyOf v) v) m) ↔
        x ∈ groupVals m ∨ x ∈ l := by
  intro l
  induction l with
  | nil => simp
  | cons v l ih =>
    intro m x
    simp only [List.foldl_cons, List.mem_cons]
    rw [ih, mem_groupVals_assocUpd]
    tauto

theorem mem_groupVals_groupByKey {K V : Type} [DecidableEq K] (keyOf : V → K)
    (l : List V) (x : V) : x ∈ groupVals (groupByKey keyOf l) ↔ x ∈ l := by
  unfold groupByKey
  rw [mem_groupVals_foldUpd]
  simp [groupVals]

theorem foldUpd_const_key {K V : Type} [DecidableEq K] (k : K) :
    ∀ (l : List V) (vs : List V),
      l.foldl (fun m v => assocUpd m k v) [(k, vs)] = [(k, vs ++ l)] := by
  intro l
  induction l with
  | nil => simp
  | cons v l ih =>
    intro vs
    have h1 : assocUpd [(k, vs)] k v = [(k, vs ++ [v])] := by simp [assocUpd]
    rw [List.foldl_cons, h1, ih]
    simp

theorem groupByKey_const {K V : Type} [DecidableEq K] (k : K) (l : List V) :
    groupByKey (fun _ => k) l = if l.isEmpty then [] else [(k, l)] := by
  cases l with
  | nil => simp [groupByKey]
  | cons v l =>
    simp only [groupByKey, List.foldl_cons, assocUpd, List.isEmpty_cons]
    rw [foldUpd_const_key]
    simp

theorem foldl_set_length {V : Type} :
    ∀ (writes : List (Nat × V)) (acc : List (Option V)),
      (writes.foldl (fun acc w => acc.set w.1 (some w.2)) acc).length = acc.length := by
  intro writes
  induction writes with
  | nil => simp
  | cons w writes ih => intro acc; rw [List.foldl_cons, ih]; simp

theorem foldl_set_length_gen {W V : Type} (key : W → Nat) (f : W → Option V) :
    ∀ (writes : List W) (acc : List (Option V)),
      (writes.foldl (fun acc w => acc.set (key w) (f w)) acc).length = acc.length := by
  intro writes
  induction writes with
  | nil => simp
  | cons w writes ih => intro acc; rw [List.foldl_cons, ih]; simp

/-- Device-resident value (`XrtComputationClient::XrtData`): owning device
name, logical shape and server-side int64 handle. -/
structure XrtData where
  device : String
  shape : XlaShape
  handle : Int

def defaultXrtData : XrtData := ⟨"", XlaShape.tuple [], 0⟩

def defaultTensorSource : TensorSource := ⟨XlaShape.tuple []⟩

/-- Result of a modelled transfer call: the routed result slots and the
number of session `Run` RPC round trips issued. -/
structure TransferResult where
  results : List (Option XrtData)
  rpcs : Nat

/-- Embedding of `XrtComputationClient::TransferToServerInternal` (lines
693-762).  All tensors target the single device `device`, so every feed
lands in the one allocation session for that device's worker target.  The
converter closures run on a thread pool and append `(feed, output, index)`
to the session work in an arbitrary arrival order — the `order` parameter,
which is the resulting `index_mapping`.  One `Run` RPC is issued per
session-work entry; the server's response for the feed built from tensor
`li` is abstracted as `alloc li`.  The runner then routes output `k` of a
session back to result slot `index_mapping[k]`. -/
def transferToServerInternal (workerTarget : String → String) (device : String)
    (alloc : Nat → Int) (order : List Nat) (tensors : List TensorSource) : TransferResult :=
  let groups := groupByKey (fun _ => workerTarget device) order
  let writes := (groupVals groups).map fun li =>
    (li, XrtData.mk device (tensors.getD li defaultTensorSource).shape (alloc li))
  { results := writes.foldl (fun acc w => acc.set w.1 (some w.2))
      (List.replicate tensors.length none)
    rpcs := groups.length }

theorem transferToServerInternal_spec (workerTarget : String → String) (device : String)
    (alloc : Nat → Int) (order : List Nat) (tensors : List TensorSource)
    (horder : order.Perm (List.range tensors.length)) :
    (transferToServerInternal workerTarget device alloc order tensors).results.length
        = tensors.length ∧
    (∀ i, i < tensors.length →
      (transferToServerInternal workerTarget device alloc order tensors).results[i]?
        = some (some (XrtData.mk device (tensors.getD i defaultTensorSource).shape (alloc i)))) ∧
    (transferToServerInternal workerTarget device alloc order tensors).rpcs ≤ 1 ∧
    (tensors.length ≠ 0 →
      (transferToServerInternal workerTarget device alloc order tensors).rpcs = 1) := by
  have hmem : ∀ i, i ∈ order ↔ i < tensors.length := by
    intro i
    rw [horder.mem_iff, List.mem_range]
  refine ⟨?_, ?_, ?_, ?_⟩
  · simp [transferToServerInternal, foldl_set_length]
  · intro i hi
    unfold transferToServerInternal
    simp only
    refine foldl_proj_reach
      (fun (acc : List (Option XrtData)) (w : Nat × XrtData) => acc.set w.1 (some w.2))
      (fun acc => acc[i]?)
      (some (some (XrtData.mk device (tensors.getD i defaultTensorSource).shape (alloc i))))
      (fun acc => acc.length = tensors.length) _ _ ?_ ?_ ?_ ?_
    · intro s w _ hlen
      rw [List.length_set]; exact hlen
    · intro s w hw hlen
      rcases List.mem_map.mp hw with ⟨li, hli, rfl⟩
      simp only
      by_cases heq : li = i
      · subst heq
        right
        exact List.getElem?_set_eq_of_lt _ (by omega)
      · left
        exact List.getElem?_set_ne heq
    · refine ⟨(i, XrtData.mk device (tensors.getD i defaultTensorSource).shape (alloc i)),
        ?_, ?_⟩
      · apply List.mem_map_of_mem
        rw [mem_groupVals_groupByKey, hmem]
        exact hi
      · intro s hlen
        simp only
        exact List.getElem?_set_eq_of_lt _ (by omega)
    · simp
  · unfold transferToServerInternal
    simp only
    rw [groupByKey_const]
    by_cases h : order.isEmpty <;> simp [h]
  · intro hn
    unfold transferToServerInternal
    simp only
    rw [groupByKey_const]
    have : ¬ order.isEmpty := by
      cases order with
      | nil =>
        exfalso
        have := horder.symm.eq_nil
        simp only [List.range_eq_nil] at this
        omega
      | cons a l => simp
    simp [this]

theorem chunksOf_length (ps : List Nat) (n : Nat) (h : ps ≠ []) :
    (chunksOf ps n).length = ps.length := by
  induction ps with
  | nil => exact absurd rfl h
  | cons b ps ih =>
    cases ps with
    | nil => simp [chunksOf]
    | cons b2 rest =>
      simp only [chunksOf, List.length_cons]
      rw [ih (List.cons_ne_nil _ _)]
      simp

theorem chunksOf_cover (ps : List Nat) (n : Nat) :
    ∀ (i b0 : Nat), ps.head? = some b0 → b0 ≤ i → i < n →
      ∃ c ∈ chunksOf ps n, c.1 ≤ i ∧ i < c.2 := by
  induction ps with
  | nil => intro i b0 h; simp at h
  | cons b ps ih =>
    intro i b0 h0 hle hin
    simp only [List.head?_cons, Option.some_inj] at h0
    rw [← h0] at hle
    cases ps with
    | nil => exact ⟨(b, n), by simp [chunksOf], hle, hin⟩
    | cons b2 rest =>
      by_cases hi2 : i < b2
      · exact ⟨(b, b2), by simp [chunksOf], hle, hi2⟩
      · rcases ih i b2 (by simp) (by omega) hin with ⟨c, hc, hc1, hc2⟩
        exact ⟨c, by simp [chunksOf, hc], hc1, hc2⟩

theorem chunksOf_getD (ps : List Nat) (n : Nat) :
    ∀ j, j < ps.length →
      (chunksOf ps n).getD j (0, 0)
        = (ps.getD j 0, if j + 1 < ps.length then ps.getD (j + 1) 0 else n) := by
  induction ps with
  | nil => intro j hj; simp at hj
  | cons b ps ih =>
    intro j hj
    cases ps with
    | nil =>
      cases j with
      | zero => simp [chunksOf]
      | succ j => simp at hj
    | cons b2 rest =>
      cases j with
      | zero => simp [chunksOf]
      | succ j =>
        simp only [List.length_cons] at hj
        have hih := ih j (by simp only [List.length_cons]; omega)
        simp only [List.length_cons] at hih
        simp only [chunksOf, List.getD_cons_succ, List.length_cons]
        rw [hih]
        by_cases h2 : j + 1 < rest.length + 1
        · rw [if_pos h2, if_pos (by omega : j + 1 + 1 < rest.length + 1 + 1)]
          simp [List.getD_cons_succ]
        · rw [if_neg h2, if_neg (by omega : ¬(j + 1 + 1 < rest.length + 1 + 1))]

theorem partitionAux_sorted_bounds (maxSize : Nat) :
    ∀ (rest : List Nat) (i cs : Nat) (ps : List Nat),
      ps.Pairwise (· < ·) → (∀ x ∈ ps, x < i) →
      (partitionAux maxSize rest i cs ps).Pairwise (· < ·) ∧
      (∀ x ∈ partitionAux maxSize rest i cs ps, x < i + rest.length) := by
  intro rest
  induction rest with
  | nil =>
    intro i cs ps hsort hbound
    refine ⟨by simpa [partitionAux] using hsort, ?_⟩
    intro x hx
    simp only [partitionAux] at hx
    have := hbound x hx
    omega
  | cons s rest ih =>
    intro i cs ps hsort hbound
    simp only [partitionAux]
    by_cases hsplit : cs + s > maxSize
    · rw [if_pos hsplit]
      have hnew : ∀ q, (q = if ps.isEmpty ∧ 0 < i then ps ++ [0] else ps) →
          (q ++ [i]).Pairwise (· < ·) ∧ (∀ x ∈ q ++ [i], x < i + 1) := by
        intro q hq
        by_cases hc : ps.isEmpty ∧ 0 < i
        · rw [if_pos hc] at hq
          have : ps = [] := List.isEmpty_iff.mp hc.1
          subst this
          subst hq
          constructor
          · simp only [List.nil_append]
            exact List.pairwise_pair.mpr hc.2
          · intro x hx
            simp only [List.nil_append, List.cons_append, List.mem_cons,
              List.mem_singleton, List.not_mem_nil, or_false] at hx
            omega
        · rw [if_neg hc] at hq
          subst hq
          constructor
          · rw [List.pairwise_append]
            exact ⟨hsort, List.pairwise_singleton _ _, by
              intro x hx y hy
              simp only [List.mem_singleton] at hy
              subst hy
              exact hbound x hx⟩
          · intro x hx
            rcases List.mem_append.mp hx with hx | hx
            · have := hbound x hx; omega
            · simp only [List.mem_singleton] at hx; omega
      obtain ⟨hq1, hq2⟩ := hnew _ rfl
      have := ih (i + 1) s _ hq1 hq2
      refine ⟨this.1, ?_⟩
      intro x hx
      have := this.2 x hx
      simp only [List.length_cons]
      omega
    · rw [if_neg hsplit]
      have := ih (i + 1) (cs + s) ps hsort (fun x hx => by have := hbound x hx; omega)
      refine ⟨this.1, ?_⟩
      intro x hx
      have := this.2 x hx
      simp only [List.length_cons]
      omega

theorem partitionAux_headZero (maxSize : Nat) :
    ∀ (rest : List Nat) (i cs : Nat) (ps : List Nat),
      (ps = [] ∨ ps.head? = some 0) →
      (partitionAux maxSize rest i cs ps = [] ∨
        (partitionAux maxSize rest i cs ps).head? = some 0) := by
  intro rest
  induction rest with
  | nil => intro i cs ps h; simpa [partitionAux] using h
  | cons s rest ih =>
    intro i cs ps h
    simp only [partitionAux]
    by_cases hsplit : cs + s > maxSize
    · rw [if_pos hsplit]
      apply ih
      right
      rcases h with hps | hps
      · subst hps
        by_cases hi0 : 0 < i
        · rw [if_pos ⟨rfl, hi0⟩]
          simp
        · rw [if_neg (by simp [hi0])]
          have : i = 0 := by omega
          simp [this]
      · cases ps with
        | nil => simp at hps
        | cons p0 ps2 =>
          simp only [List.head?_cons, Option.some_inj] at hps
          rw [← hps]
          rw [if_neg (by simp)]
          simp
    · rw [if_neg hsplit]
      exact ih _ _ _ h

theorem partitionTransferToServer_props (maxSize : Nat) (tensors : List TensorSource) :
    (partitionTransferToServer maxSize tensors).Pairwise (· < ·) ∧
    (partitionTransferToServer maxSize tensors).head? = some 0 ∧
    (∀ x ∈ partitionTransferToServer maxSize tensors, x = 0 ∨ x < tensors.length) ∧
    partitionTransferToServer maxSize tensors ≠ [] := by
  unfold partitionTransferToServer
  have hsb := partitionAux_sorted_bounds maxSize
    (tensors.map fun t => byteSizeOfElements t.shape) 0 0 [] (by simp) (by simp)
  have hh := partitionAux_headZero maxSize
    (tensors.map fun t => byteSizeOfElements t.shape) 0 0 [] (Or.inl rfl)
  by_cases hempty :
      (partitionAux maxSize (tensors.map fun t => byteSizeOfElements t.shape) 0 0 []).isEmpty
  · rw [if_pos hempty]
    refine ⟨by simp, by simp, ?_, by simp⟩
    intro x hx
    simp only [List.mem_singleton] at hx
    exact Or.inl hx
  · rw [if_neg hempty]
    refine ⟨hsb.1, ?_, ?_, ?_⟩
    · rcases hh with h | h
      · exfalso; rw [h] at hempty; simp at hempty
      · exact h
    · intro x hx
      have := hsb.2 x hx
      simp only [List.length_map, Nat.zero_add] at this
      omega
    · intro h; rw [h] at hempty; simp at hempty

theorem getD_eq_getElem {α : Type} (l : List α) (j : Nat) (d : α) (h : j < l.length) :
    l.getD j d = l[j] := by
  simp [List.getD, List.getElem?_eq_getElem h]

theorem getD_take_drop {α : Type} (l : List α) (b len r : Nat) (d : α) (hr : r < len) :
    ((l.drop b).take len).getD r d = l.getD (b + r) d := by
  simp only [List.getD, List.get?_eq_getElem?]
  rw [List.getElem?_take_of_lt hr, List.getElem?_drop]

/-- Start index of partition `j` (the `base_index` of the sender closure at
line 677 of the source). -/
def partitionBase (partitions : List Nat) (j : Nat) : Nat := partitions.getD j 0

/-- Tensor count of partition `j` (the `length` computed at lines 678-680). -/
def partitionLen (partitions : List Nat) (n j : Nat) : Nat :=
  if j + 1 < partitions.length then partitions.getD (j + 1) 0 - partitions.getD j 0
  else n - partitions.getD j 0

/-- One-past-the-end index of partition `j`. -/
def partitionEnd (partitions : List Nat) (n j : Nat) : Nat :=
  if j + 1 < partitions.length then partitions.getD (j + 1) 0 else n

theorem partition_base_len_end (partitions : List Nat) (n j : Nat)
    (hsort : partitions.Pairwise (· < ·))
    (hbound : ∀ x ∈ partitions, x = 0 ∨ x < n)
    (hj : j < partitions.length) :
    partitionBase partitions j + partitionLen partitions n j = partitionEnd partitions n j ∧
    partitionEnd partitions n j ≤ n := by
  unfold partitionBase partitionLen partitionEnd
  by_cases h2 : j + 1 < partitions.length
  · rw [if_pos h2, if_pos h2]
    have hlt : partitions.getD j 0 < partitions.getD (j + 1) 0 := by
      rw [getD_eq_getElem _ _ _ hj, getD_eq_getElem _ _ _ h2]
      exact List.pairwise_iff_getElem.mp hsort j (j + 1) hj h2 (by omega)
    have hmem : partitions.getD (j + 1) 0 ∈ partitions := by
      rw [getD_eq_getElem _ _ _ h2]
      exact List.getElem_mem h2
    have := hbound _ hmem
    omega
  · rw [if_neg h2, if_neg h2]
    have hmem : partitions.getD j 0 ∈ partitions := by
      rw [getD_eq_getElem _ _ _ hj]
      exact List.getElem_mem hj
    have := hbound _ hmem
    omega

theorem partitionCover (partitions : List Nat) (n i : Nat)
    (hhead : partitions.head? = some 0) (hne : partitions ≠ []) (hi : i < n) :
    ∃ j, j < partitions.length ∧ partitionBase partitions j ≤ i ∧
      i < partitionEnd partitions n j := by
  obtain ⟨c, hc, hc1, hc2⟩ := chunksOf_cover partitions n i 0 hhead (by omega) hi
  obtain ⟨k, hk, hck⟩ := List.mem_iff_getElem.mp hc
  rw [chunksOf_length _ _ hne] at hk
  have hgd : (chunksOf partitions n).getD k (0, 0) = c := by
    rw [getD_eq_getElem _ _ _ (by rw [chunksOf_length _ _ hne]; exact hk), hck]
  rw [chunksOf_getD partitions n k hk] at hgd
  refine ⟨k, hk, ?_, ?_⟩
  · unfold partitionBase
    have : c.1 = partitions.getD k 0 := by rw [← hgd]
    omega
  · unfold partitionEnd
    have : c.2 = if k + 1 < partitions.length then partitions.getD (k + 1) 0 else n := by
      rw [← hgd]
    omega

/-- Result of the modelled outer `TransferToServer`: routed result slots,
total `Run` RPC count, and the number of partition sender closures
scheduled on the I/O thread pool (zero on the single-partition fast
path). -/
structure TransferOuterResult where
  results : List (Option XrtData)
  rpcs : Nat
  partitionWorkers : Nat

/-- One sender closure of `XrtDevice::TransferToServer` (lines 676-686):
transfers the tensors of partition `j` through `TransferToServerInternal`
and copies the partition's results into the shared results vector at the
partition's base offset. -/
def transferPartitionStep (workerTarget : String → String) (device : String)
    (alloc : Nat → Int) (orders : Nat → List Nat) (tensors : List TensorSource)
    (partitions : List Nat) (acc : List (Option XrtData) × Nat) (j : Nat) :
    List (Option XrtData) × Nat :=
  let base := partitionBase partitions j
  let len := partitionLen partitions tensors.length j
  let sub := transferToServerInternal workerTarget device (fun r => alloc (base + r))
    (orders j) ((tensors.drop base).take len)
  ((List.range len).foldl (fun a r => a.set (base + r) (sub.results.getD r none)) acc.1,
   acc.2 + sub.rpcs)

/-- Embedding of `XrtComputationClient::XrtDevice::TransferToServer` (lines
662-691): partition the batch; with a single partition, call
`TransferToServerInternal` directly (fast path, no sender closures);
otherwise schedule one sender closure per partition on the I/O pool —
`schedule` is the nondeterministic order in which the senders run — and
reassemble their results into the original slots. -/
def transferToServer (maxSize : Nat) (workerTarget : String → String) (device : String)
    (alloc : Nat → Int) (orders : Nat → List Nat) (schedule : List Nat)
    (tensors : List TensorSource) : TransferOuterResult :=
  if (partitionTransferToServer maxSize tensors).length = 1 then
    { results := (transferToServerInternal workerTarget device alloc (orders 0) tensors).results
      rpcs := (transferToServerInternal workerTarget device alloc (orders 0) tensors).rpcs
      partitionWorkers := 0 }
  else
    { results := (schedule.foldl
        (transferPartitionStep workerTarget device alloc orders tensors
          (partitionTransferToServer maxSize tensors))
        (List.replicate tensors.length none, 0)).1
      rpcs := (schedule.foldl
        (transferPartitionStep workerTarget device alloc orders tensors
          (partitionTransferToServer maxSize tensors))
        (List.replicate tensors.length none, 0)).2
      partitionWorkers := (partitionTransferToServer maxSize tensors).length }

theorem foldl_set_length_fn {V : Type} (f : Nat → Option V) (base : Nat) :
    ∀ (l : List Nat) (acc : List (Option V)),
      (l.foldl (fun a r => a.set (base + r) (f r)) acc).length = acc.length := by
  intro l
  induction l with
  | nil => simp
  | cons r l ih => intro acc; rw [List.foldl_cons, ih]; simp

theorem transferPartitionStep_length (workerTarget : String → String) (device : String)
    (alloc : Nat → Int) (orders : Nat → List Nat) (tensors : List TensorSource)
    (partitions : List Nat) (acc : List (Option XrtData) × Nat) (j : Nat) :
    (transferPartitionStep workerTarget device alloc orders tensors partitions acc j).1.length
      = acc.1.length := by
  unfold transferPartitionStep
  simp only
  rw [foldl_set_length_fn]

theorem foldl_setRange_hit {V : Type} (f : Nat → Option V) (base len i : Nat)
    (acc : List (Option V)) (hbase : base ≤ i) (hi : i - base < len)
    (hlen : i < acc.length) :
    ((List.range len).foldl (fun a r => a.set (base + r) (f r)) acc)[i]?
      = some (f (i - base)) := by
  refine foldl_proj_reach (fun (a : List (Option V)) (r : Nat) => a.set (base + r) (f r))
    (fun a => a[i]?) (some (f (i - base))) (fun a => a.length = acc.length)
    (List.range len) acc ?_ ?_ ?_ rfl
  · intro s r _ hP
    simp only [List.length_set]
    exact hP
  · intro s r _ hP
    simp only
    by_cases hr : base + r = i
    · right
      have : r = i - base := by omega
      subst this
      rw [hr]
      exact List.getElem?_set_eq_of_lt _ (by omega)
    · left
      exact List.getElem?_set_ne hr
  · refine ⟨i - base, by rw [List.mem_range]; exact hi, ?_⟩
    intro s hP
    simp only
    have : base + (i - base) = i := by omega
    rw [this]
    exact List.getElem?_set_eq_of_lt _ (by omega)

theorem foldl_setRange_miss {V : Type} (f : Nat → Option V) (base len i : Nat)
    (acc : List (Option V)) (hmiss : ∀ r, r < len → base + r ≠ i) :
    ((List.range len).foldl (fun a r => a.set (base + r) (f r)) acc)[i]? = acc[i]? := by
  refine foldl_proj_frozen (fun (a : List (Option V)) (r : Nat) => a.set (base + r) (f r))
    (fun a => a[i]?) (fun _ => True) (List.range len) acc (fun _ _ _ _ => trivial) ?_ trivial
  intro s r hr _
  simp only
  exact List.getElem?_set_ne (hmiss r (List.mem_range.mp hr))

theorem transferPartitionStep_slot_hit (workerTarget : String → String) (device : String)
    (alloc : Nat → Int) (orders : Nat → List Nat) (tensors : List TensorSource)
    (partitions : List Nat) (j i : Nat)
    (hsort : partitions.Pairwise (· < ·))
    (hbound : ∀ x ∈ partitions, x = 0 ∨ x < tensors.length)
    (hj : j < partitions.length)
    (hperm : (orders j).Perm (List.range (partitionLen partitions tensors.length j)))
    (hbase : partitionBase partitions j ≤ i)
    (hend : i < partitionEnd partitions tensors.length j)
    (acc : List (Option XrtData) × Nat) (hlen : acc.1.length = tensors.length) :
    (transferPartitionStep workerTarget device alloc orders tensors partitions acc j).1[i]?
      = some (some (XrtData.mk device (tensors.getD i defaultTensorSource).shape (alloc i))) := by
  obtain ⟨hble, hendn⟩ :=
    partition_base_len_end partitions tensors.length j hsort hbound hj
  have hr : i - partitionBase partitions j < partitionLen partitions tensors.length j := by
    omega
  have hsublen : ((tensors.drop (partitionBase partitions j)).take
      (partitionLen partitions tensors.length j)).length
      = partitionLen partitions tensors.length j := by
    simp only [List.length_take, List.length_drop]
    omega
  have hperm2 : (orders j).Perm (List.range ((tensors.drop (partitionBase partitions j)).take
      (partitionLen partitions tensors.length j)).length) := by
    rw [hsublen]
    exact hperm
  have hsub := transferToServerInternal_spec workerTarget device
    (fun r => alloc (partitionBase partitions j + r)) (orders j)
    ((tensors.drop (partitionBase partitions j)).take
      (partitionLen partitions tensors.length j)) hperm2
  unfold transferPartitionStep
  simp only
  rw [foldl_setRange_hit _ _ _ _ _ hbase hr (by omega)]
  have hgot := hsub.2.1 (i - partitionBase partitions j) (by rw [hsublen]; exact hr)
  have hgd : (transferToServerInternal workerTarget device
      (fun r => alloc (partitionBase partitions j + r)) (orders j)
      ((tensors.drop (partitionBase partitions j)).take
        (partitionLen partitions tensors.length j))).results.getD
      (i - partitionBase partitions j) none
      = some (XrtData.mk device
          (((tensors.drop (partitionBase partitions j)).take
            (partitionLen partitions tensors.length j)).getD
            (i - partitionBase partitions j) defaultTensorSource).shape
          (alloc (partitionBase partitions j + (i - partitionBase partitions j)))) := by
    simp [List.getD, List.get?_eq_getElem?, hgot]
  rw [hgd, getD_take_drop _ _ _ _ _ hr]
  have heq : partitionBase partitions j + (i - partitionBase partitions j) = i := by omega
  rw [heq]

theorem transferPartitionStep_slot_miss (workerTarget : String → String) (device : String)
    (alloc : Nat → Int) (orders : Nat → List Nat) (tensors : List TensorSource)
    (partitions : List Nat) (j i : Nat)
    (hsort : partitions.Pairwise (· < ·))
    (hbound : ∀ x ∈ partitions, x = 0 ∨ x < tensors.length)
    (hj : j < partitions.length)
    (hmiss : ¬(partitionBase partitions j ≤ i ∧
      i < partitionEnd partitions tensors.length j))
    (acc : List (Option XrtData) × Nat) :
    (transferPartitionStep workerTarget device alloc orders tensors partitions acc j).1[i]?
      = acc.1[i]? := by
  obtain ⟨hble, hendn⟩ :=
    partition_base_len_end partitions tensors.length j hsort hbound hj
  unfold transferPartitionStep
  simp only
  apply foldl_setRange_miss
  intro r hrlen
  omega

theorem transferToServer_spec (maxSize : Nat) (workerTarget : String → String)
    (device : String) (alloc : Nat → Int) (orders : Nat → List Nat) (schedule : List Nat)
    (tensors : List TensorSource)
    (horders : ∀ j, j < (partitionTransferToServer maxSize tensors).length →
      (orders j).Perm (List.range
        (partitionLen (partitionTransferToServer maxSize tensors) tensors.length j)))
    (hsched : schedule.Perm
      (List.range (partitionTransferToServer maxSize tensors).length)) :
    (transferToServer maxSize workerTarget device alloc orders schedule tensors).results.length
      = tensors.length ∧
    ∀ i, i < tensors.length →
      (transferToServer maxSize workerTarget device alloc orders schedule tensors).results[i]?
        = some (some (XrtData.mk device (tensors.getD i defaultTensorSource).shape
            (alloc i))) := by
  obtain ⟨hsort, hhead, hbound, hne⟩ := partitionTransferToServer_props maxSize tensors
  unfold transferToServer
  by_cases hfast : (partitionTransferToServer maxSize tensors).length = 1
  · rw [if_pos hfast]
    obtain ⟨b, hb⟩ := List.length_eq_one.mp hfast
    have hb0 : b = 0 := by
      rw [hb] at hhead
      simpa using hhead
    subst hb0
    have hlen0 : partitionLen (partitionTransferToServer maxSize tensors)
        tensors.length 0 = tensors.length := by
      rw [hb]
      unfold partitionLen
      simp
    have hperm0 := horders 0 (by omega)
    rw [hlen0] at hperm0
    have hspec := transferToServerInternal_spec workerTarget device alloc (orders 0)
      tensors hperm0
    exact ⟨hspec.1, fun i hi => hspec.2.1 i hi⟩
  · rw [if_neg hfast]
    constructor
    · have hlen := foldl_proj_frozen
        (transferPartitionStep workerTarget device alloc orders tensors
          (partitionTransferToServer maxSize tensors))
        (fun s => s.1.length) (fun _ => True) schedule
        (List.replicate tensors.length none, 0)
        (fun _ _ _ _ => trivial)
        (fun s j _ _ => transferPartitionStep_length workerTarget device alloc orders
          tensors (partitionTransferToServer maxSize tensors) s j)
        trivial
      simpa using hlen
    · intro i hi
      obtain ⟨jstar, hjlen, hjbase, hjend⟩ := partitionCover
        (partitionTransferToServer maxSize tensors) tensors.length i hhead hne hi
      refine foldl_proj_reach
        (transferPartitionStep workerTarget device alloc orders tensors
          (partitionTransferToServer maxSize tensors))
        (fun s => s.1[i]?)
        (some (some (XrtData.mk device (tensors.getD i defaultTensorSource).shape
          (alloc i))))
        (fun s => s.1.length = tensors.length) schedule
        (List.replicate tensors.length none, 0) ?_ ?_ ?_ (by simp)
      · intro s j _ hP
        rw [transferPartitionStep_length]
        exact hP
      · intro s j hjmem hP
        have hjlt : j < (partitionTransferToServer maxSize tensors).length := by
          have := hsched.mem_iff.mp hjmem
          simpa [List.mem_range] using this
        by_cases hc : partitionBase (partitionTransferToServer maxSize tensors) j ≤ i ∧
            i < partitionEnd (partitionTransferToServer maxSize tensors) tensors.length j
        · right
          exact transferPartitionStep_slot_hit workerTarget device alloc orders tensors
            (partitionTransferToServer maxSize tensors) j i hsort hbound hjlt
            (horders j hjlt) hc.1 hc.2 s hP
        · left
          exact transferPartitionStep_slot_miss workerTarget device alloc orders tensors
            (partitionTransferToServer maxSize tensors) j i hsort hbound hjlt hc s
      · refine ⟨jstar, ?_, ?_⟩
        · rw [hsched.mem_iff, List.mem_range]
          exact hjlen
        · intro s hP
          exact transferPartitionStep_slot_hit workerTarget device alloc orders tensors
            (partitionTransferToServer maxSize tensors) jstar i hsort hbound hjlen
            (horders jstar hjlen) hjbase hjend s hP

/-- Modelled from the spec: the session identity used by the read-back
grouping.  `GetSessionForDevice` resolves a device to the session for its
worker target within the current per-batch session map; `xrt_session.*`
and `xrt_session_cache.*` are not among the sources, and spec section 4.4
specifies one read RPC per (batch, session) pair, so a session is keyed
here by the batch epoch together with the device's worker target. -/
def readSessionKey (workerTarget : String → String) (batch : Nat) (device : String) :
    Nat × String :=
  (batch, workerTarget device)

/-- Grouping loop of `XrtComputationClient::TransferFromServerImpl` (lines
773-794): handles are walked in order; a fresh session map is started
whenever the accumulated byte size reaches the ceiling (note the `>=`
comparison at line 777, unlike the `>` of `PartitionTransferToServer`);
each handle's read feed, tagged with its original index, is appended to
the work of its session. -/
def readGroupsAux (maxSize : Nat) (workerTarget : String → String) :
    List XrtData → Nat → Nat → Nat →
    List ((Nat × String) × List (Nat × XrtData)) →
    List ((Nat × String) × List (Nat × XrtData))
  | [], _, _, _, m => m
  | h :: rest, i, currentSize, batch, m =>
    if currentSize + byteSizeOfElements h.shape ≥ maxSize then
      readGroupsAux maxSize workerTarget rest (i + 1) (byteSizeOfElements h.shape)
        (batch + 1) (assocUpd m (readSessionKey workerTarget (batch + 1) h.device) (i, h))
    else
      readGroupsAux maxSize workerTarget rest (i + 1)
        (currentSize + byteSizeOfElements h.shape) batch
        (assocUpd m (readSessionKey workerTarget batch h.device) (i, h))

/-- Embedding of `XrtComputationClient::TransferFromServerImpl` (lines
764-816): group the handles into per-session work, issue one read RPC per
group — the server's literal response for a fed handle abstracted by
`read` — and route output `k` of each session back to result slot
`index_mapping[k]`.  Returns the result slots and the read-RPC count. -/
def transferFromServer {Lit : Type} (maxSize : Nat) (workerTarget : String → String)
    (read : XrtData → Lit) (handles : List XrtData) : List (Option Lit) × Nat :=
  ((groupVals (readGroupsAux maxSize workerTarget handles 0 0 0 [])).foldl
      (fun acc w => acc.set w.1 (some (read w.2)))
      (List.replicate handles.length none),
   (readGroupsAux maxSize workerTarget handles 0 0 0 []).length)

theorem readGroupsAux_mono (maxSize : Nat) (workerTarget : String → String) :
    ∀ (rest : List XrtData) (i cs batch : Nat)
      (m : List ((Nat × String) × List (Nat × XrtData))) (x : Nat × XrtData),
      x ∈ groupVals m →
      x ∈ groupVals (readGroupsAux maxSize workerTarget rest i cs batch m) := by
  intro rest
  induction rest with
  | nil => intro i cs batch m x hx; simpa [readGroupsAux] using hx
  | cons h rest ih =>
    intro i cs batch m x hx
    simp only [readGroupsAux]
    by_cases hc : cs + byteSizeOfElements h.shape ≥ maxSize
    · rw [if_pos hc]
      exact ih _ _ _ _ _ ((mem_groupVals_assocUpd _ _ _ _).mpr (Or.inl hx))
    · rw [if_neg hc]
      exact ih _ _ _ _ _ ((mem_groupVals_assocUpd _ _ _ _).mpr (Or.inl hx))

theorem readGroupsAux_covers (maxSize : Nat) (workerTarget : String → String) :
    ∀ (rest : List XrtData) (i cs batch : Nat)
      (m : List ((Nat × String) × List (Nat × XrtData))) (k : Nat), k < rest.length →
      (i + k, rest.getD k defaultXrtData) ∈
        groupVals (readGroupsAux maxSize workerTarget rest i cs batch m) := by
  intro rest
  induction rest with
  | nil => intro i cs batch m k hk; simp at hk
  | cons h rest ih =>
    intro i cs batch m k hk
    simp only [readGroupsAux]
    cases k with
    | zero =>
      simp only [List.getD_cons_zero, Nat.add_zero]
      by_cases hc : cs + byteSizeOfElements h.shape ≥ maxSize
      · rw [if_pos hc]
        exact readGroupsAux_mono maxSize workerTarget _ _ _ _ _ _
          ((mem_groupVals_assocUpd _ _ _ _).mpr (Or.inr rfl))
      · rw [if_neg hc]
        exact readGroupsAux_mono maxSize workerTarget _ _ _ _ _ _
          ((mem_groupVals_assocUpd _ _ _ _).mpr (Or.inr rfl))
    | succ k =>
      simp only [List.getD_cons_succ]
      simp only [List.length_cons] at hk
      have heq : i + (k + 1) = (i + 1) + k := by omega
      rw [heq]
      by_cases hc : cs + byteSizeOfElements h.shape ≥ maxSize
      · rw [if_pos hc]
        exact ih _ _ _ _ k (by omega)
      · rw [if_neg hc]
        exact ih _ _ _ _ k (by omega)

theorem readGroupsAux_entries (maxSize : Nat) (workerTarget : String → String)
    (P : Nat × XrtData → Prop) :
    ∀ (rest : List XrtData) (i cs batch : Nat)
      (m : List ((Nat × String) × List (Nat × XrtData))),
      (∀ e ∈ groupVals m, P e) →
      (∀ k, k < rest.length → P (i + k, rest.getD k defaultXrtData)) →
      ∀ e ∈ groupVals (readGroupsAux maxSize workerTarget rest i cs batch m), P e := by
  intro rest
  induction rest with
  | nil => intro i cs batch m hm _ e he; exact hm e (by simpa [readGroupsAux] using he)
  | cons h rest ih =>
    intro i cs batch m hm hstream e he
    simp only [readGroupsAux] at he
    have hm2 : ∀ (key : Nat × String),
        ∀ e2 ∈ groupVals (assocUpd m key (i, h)), P e2 := by
      intro key e2 he2
      rcases (mem_groupVals_assocUpd _ _ _ _).mp he2 with h2 | h2
      · exact hm e2 h2
      · subst h2
        have := hstream 0 (by simp)
        simpa using this
    have hstream2 : ∀ k, k < rest.length → P ((i + 1) + k, rest.getD k defaultXrtData) := by
      intro k hk
      have := hstream (k + 1) (by simp; omega)
      simp only [List.getD_cons_succ] at this
      have heq : i + (k + 1) = (i + 1) + k := by omega
      rwa [heq] at this
    by_cases hc : cs + byteSizeOfElements h.shape ≥ maxSize
    · rw [if_pos hc] at he
      exact ih _ _ _ _ (hm2 _) hstream2 e he
    · rw [if_neg hc] at he
      exact ih _ _ _ _ (hm2 _) hstream2 e he

theorem transferFromServer_spec {Lit : Type} (maxSize : Nat)
    (workerTarget : String → String) (read : XrtData → Lit) (handles : List XrtData) :
    (transferFromServer maxSize workerTarget read handles).1.length = handles.length ∧
    ∀ i, i < handles.length →
      (transferFromServer maxSize workerTarget read handles).1[i]?
        = some (some (read (handles.getD i defaultXrtData))) := by
  have hent : ∀ e ∈ groupVals (readGroupsAux maxSize workerTarget handles 0 0 0 []),
      e.2 = handles.getD e.1 defaultXrtData ∧ e.1 < handles.length := by
    apply readGroupsAux_entries maxSize workerTarget
      (fun e => e.2 = handles.getD e.1 defaultXrtData ∧ e.1 < handles.length)
    · simp [groupVals]
    · intro k hk
      constructor
      · simp
      · simpa using hk
  constructor
  · unfold transferFromServer
    simp only
    rw [foldl_set_length_gen (fun (w : Nat × XrtData) => w.1) (fun w => some (read w.2))]
    simp
  · intro i hi
    unfold transferFromServer
    simp only
    refine foldl_proj_reach
      (fun (acc : List (Option Lit)) (w : Nat × XrtData) => acc.set w.1 (some (read w.2)))
      (fun acc => acc[i]?)
      (some (some (read (handles.getD i defaultXrtData))))
      (fun acc => acc.length = handles.length)
      (groupVals (readGroupsAux maxSize workerTarget handles 0 0 0 []))
      (List.replicate handles.length none) ?_ ?_ ?_ (by simp)
    · intro s w _ hP
      simp only [List.length_set]
      exact hP
    · intro s w hw hP
      obtain ⟨hval, hlt⟩ := hent w hw
      simp only
      by_cases heq : w.1 = i
      · right
        rw [heq, hval, heq]
        exact List.getElem?_set_eq_of_lt _ (by omega)
      · left
        exact List.getElem?_set_ne heq
    · refine ⟨(i, handles.getD i defaultXrtData), ?_, ?_⟩
      · have := readGroupsAux_covers maxSize workerTarget handles 0 0 0 [] i hi
        simpa using this
      · intro s hP
        simp only
        exact List.getElem?_set_eq_of_lt _ (by omega)

/-- C2: `TransferToServer` returns one `DeviceHandle` slot per input
tensor, with slot `i` carrying tensor `i`'s shape and the server handle
allocated for tensor `i`'s feed, for every converter arrival order and
every partition completion order; `TransferFromServer` likewise returns
the server's literal for handle `i` in slot `i`, for every batch/session
grouping the size ceiling induces. -/
theorem transfer_order_preserved :
    (∀ (maxSize : Nat) (workerTarget : String → String) (device : String)
        (alloc : Nat → Int) (orders : Nat → List Nat) (schedule : List Nat)
        (tensors : List TensorSource),
      (∀ j, j < (partitionTransferToServer maxSize tensors).length →
        (orders j).Perm (List.range
          (partitionLen (partitionTransferToServer maxSize tensors) tensors.length j))) →
      schedule.Perm (List.range (partitionTransferToServer maxSize tensors).length) →
      (transferToServer maxSize workerTarget device alloc orders schedule
          tensors).results.length = tensors.length ∧
      ∀ i, i < tensors.length →
        (transferToServer maxSize workerTarget device alloc orders schedule
            tensors).results[i]?
          = some (some (XrtData.mk device (tensors.getD i defaultTensorSource).shape
              (alloc i)))) ∧
    (∀ (Lit : Type) (maxSize : Nat) (workerTarget : String → String)
        (read : XrtData → Lit) (handles : List XrtData),
      (transferFromServer maxSize workerTarget read handles).1.length = handles.length ∧
      ∀ i, i < handles.length →
        (transferFromServer maxSize workerTarget read handles).1[i]?
          = some (some (read (handles.getD i defaultXrtData)))) := by
  constructor
  · intro maxSize workerTarget device alloc orders schedule tensors horders hsched
    exact transferToServer_spec maxSize workerTarget device alloc orders schedule
      tensors horders hsched
  · intro Lit maxSize workerTarget read handles
    exact transferFromServer_spec maxSize workerTarget read handles

theorem transfer_order_preserved_witness :
    (transferToServer 5 (fun _ => "w") "CPU:0" Int.ofNat (fun _ => [0]) [1, 0]
      [⟨XlaShape.array 1 [3]⟩, ⟨XlaShape.array 1 [4]⟩]).results.length = 2 ∧
    (transferToServer 5 (fun _ => "w") "CPU:0" Int.ofNat (fun _ => [0]) [1, 0]
      [⟨XlaShape.array 1 [3]⟩, ⟨XlaShape.array 1 [4]⟩]).results[1]?
      = some (some (XrtData.mk "CPU:0" (XlaShape.array 1 [4]) (Int.ofNat 1))) := by
  have h := transfer_order_preserved.1 5 (fun _ => "w") "CPU:0" Int.ofNat
    (fun _ => [0]) [1, 0] [⟨XlaShape.array 1 [3]⟩, ⟨XlaShape.array 1 [4]⟩]
    (by decide) (by decide)
  refine ⟨h.1, ?_⟩
  have h2 := h.2 1 (by simp)
  simpa using h2

/-- C8: when partitioning yields a single partition, `TransferToServer`
takes the direct fast path — no partition sender closures are scheduled —
and issues at most one `Run` RPC per distinct target session, which is
exactly one RPC when the (nonempty) batch targets one device; in
particular 3 small tensors of shapes `[2,2]`, `[4]`, `[1]` to `CPU:0`
under the default ceiling form one partition and yield 3 handles with
matching shapes through exactly one RPC and zero partition workers. -/
theorem transfer_fast_path :
    (∀ (maxSize : Nat) (workerTarget : String → String) (device : String)
        (alloc : Nat → Int) (orders : Nat → List Nat) (schedule : List Nat)
        (tensors : List TensorSource),
      (partitionTransferToServer maxSize tensors).length = 1 →
      (orders 0).Perm (List.range tensors.length) →
      (transferToServer maxSize workerTarget device alloc orders schedule
        tensors).partitionWorkers = 0 ∧
      (transferToServer maxSize workerTarget device alloc orders schedule
        tensors).rpcs ≤ 1 ∧
      (tensors.length ≠ 0 →
        (transferToServer maxSize workerTarget device alloc orders schedule
          tensors).rpcs = 1)) ∧
    (partitionTransferToServer defaultMaxTensorsPartitionSize
        [⟨XlaShape.array 4 [2, 2]⟩, ⟨XlaShape.array 4 [4]⟩, ⟨XlaShape.array 4 [1]⟩]
        = [0] ∧
      transferToServer defaultMaxTensorsPartitionSize (fun _ => "w") "CPU:0" Int.ofNat
        (fun _ => [0, 1, 2]) []
        [⟨XlaShape.array 4 [2, 2]⟩, ⟨XlaShape.array 4 [4]⟩, ⟨XlaShape.array 4 [1]⟩]
        = { results := [some (XrtData.mk "CPU:0" (XlaShape.array 4 [2, 2]) (Int.ofNat 0)),
              some (XrtData.mk "CPU:0" (XlaShape.array 4 [4]) (Int.ofNat 1)),
              some (XrtData.mk "CPU:0" (XlaShape.array 4 [1]) (Int.ofNat 2))]
            rpcs := 1
            partitionWorkers := 0 }) := by
  constructor
  · intro maxSize workerTarget device alloc orders schedule tensors hfast horder
    have hspec := transferToServerInternal_spec workerTarget device alloc (orders 0)
      tensors horder
    unfold transferToServer
    rw [if_pos hfast]
    exact ⟨rfl, hspec.2.2.1, fun hn => hspec.2.2.2 hn⟩
  · constructor
    · rfl
    · rfl

theorem transfer_fast_path_witness :
    (transferToServer 100 (fun _ => "w") "CPU:0" Int.ofNat (fun _ => [0]) []
      [⟨XlaShape.array 1 [3]⟩]).partitionWorkers = 0 ∧
    (transferToServer 100 (fun _ => "w") "CPU:0" Int.ofNat (fun _ => [0]) []
      [⟨XlaShape.array 1 [3]⟩]).rpcs = 1 := by
  have h := transfer_fast_path.1 100 (fun _ => "w") "CPU:0" Int.ofNat
    (fun _ => [0]) [] [⟨XlaShape.array 1 [3]⟩] (by decide) (by decide)
  exact ⟨h.1, h.2.2 (by simp)⟩

/-- A queued handle (`XrtComputationClient::DeviceHandle`, the struct used
by the pending-release lists): owning device and int64 server handle. -/
structure DeviceHandle where
  device : String
  handle : Int
deriving DecidableEq

/-- Client-side events relevant to handle release: a last reference drop
(`ReleaseHandle` enqueue) or a wake-up of the releaser task draining the
pending list. -/
inductive ReleaseEvent where
  | enqueue (d : DeviceHandle)
  | drain
deriving DecidableEq

/-- Per-session grouping of drained handles (`session_handles_map`, lines
1437-1443), keyed by the worker target of each handle's device. -/
def releaseRpcBatches (workerTarget : String → String) (released : List DeviceHandle) :
    List (String × List DeviceHandle) :=
  groupByKey (fun d => workerTarget d.device) released

/-- One step of the release state machine.  `ReleaseHandle` (lines
1498-1506) appends the handle to the shared pending list under the lock
and merely activates the releaser — it emits no RPC.  A drain
(`ReleaseHandles`, lines 1429-1443) swaps the whole pending list out under
the lock and issues one batched release RPC per session group.  State:
(pending list, RPC batches issued so far). -/
def releaseTraceStep (workerTarget : String → String)
    (s : List DeviceHandle × List (List DeviceHandle)) (e : ReleaseEvent) :
    List DeviceHandle × List (List DeviceHandle) :=
  match e with
  | .enqueue d => (s.1 ++ [d], s.2)
  | .drain => ([], s.2 ++ (releaseRpcBatches workerTarget s.1).map Prod.snd)

/-- Run a sequence of release events from the initial (empty) state. -/
def releaseTrace (workerTarget : String → String) (events : List ReleaseEvent) :
    List DeviceHandle × List (List DeviceHandle) :=
  events.foldl (releaseTraceStep workerTarget) ([], [])

theorem count_groupVals_foldUpd {K V : Type} [DecidableEq K] [DecidableEq V]
    (keyOf : V → K) :
    ∀ (l : List V) (m : List (K × List V)) (x : V),
      (groupVals (l.foldl (fun m v => assocUpd m (keyOf v) v) m)).count x
        = (groupVals m).count x + l.count x := by
  intro l
  induction l with
  | nil => simp
  | cons v l ih =>
    intro m x
    simp only [List.foldl_cons]
    rw [ih, count_groupVals_assocUpd, List.count_cons]
    rcases eq_or_ne v x with h | h
    · subst h
      simp only [if_pos rfl, beq_self_eq_true, if_true]
      omega
    · rw [if_neg h]
      have hbeq : (v == x) = false := by
        simp only [beq_eq_false_iff_ne, ne_eq]
        exact h
      rw [hbeq]
      simp only [Bool.false_eq_true, if_false]
      omega

theorem count_groupVals_groupByKey {K V : Type} [DecidableEq K] [DecidableEq V]
    (keyOf : V → K) (l : List V) (x : V) :
    (groupVals (groupByKey keyOf l)).count x = l.count x := by
  unfold groupByKey
  rw [count_groupVals_foldUpd]
  simp [groupVals]

theorem releaseTrace_count (workerTarget : String → String) (d : DeviceHandle) :
    ∀ (events : List ReleaseEvent) (s : List DeviceHandle × List (List DeviceHandle)),
      (events.foldl (releaseTraceStep workerTarget) s).2.flatten.count d
        + (events.foldl (releaseTraceStep workerTarget) s).1.count d
        = s.2.flatten.count d + s.1.count d
          + (events.filter (fun e => e == ReleaseEvent.enqueue d)).length := by
  intro events
  induction events with
  | nil => intro s; simp
  | cons e events ih =>
    intro s
    rw [List.foldl_cons]
    cases e with
    | enqueue d2 =>
      rw [ih]
      simp only [releaseTraceStep, List.count_append, List.filter_cons]
      by_cases hd : d2 = d
      · subst hd
        simp [List.count_singleton]
        omega
      · have hne : (ReleaseEvent.enqueue d2 == ReleaseEvent.enqueue d) = false := by
          simp [hd]
        rw [hne]
        simp only [Bool.false_eq_true, if_false]
        have : [d2].count d = 0 := by
          simp [List.count_singleton, hd]
        omega
    | drain =>
      rw [ih]
      have hflat : ((releaseRpcBatches workerTarget s.1).map Prod.snd).flatten.count d
          = s.1.count d := by
        have := count_groupVals_groupByKey (fun d0 : DeviceHandle => workerTarget d0.device)
          s.1 d
        simpa [releaseRpcBatches, groupVals] using this
      simp only [releaseTraceStep, List.filter_cons]
      have hne : (ReleaseEvent.drain == ReleaseEvent.enqueue d) = false := by
        simp [beq_iff_eq]
      rw [hne]
      simp only [Bool.false_eq_true, if_false, List.flatten_append, List.count_append,
        List.count_nil]
      omega

theorem count_flatten_eq_zero {α : Type} [DecidableEq α] (l : List (List α)) (x : α)
    (h : l.flatten.count x = 0) : ∀ b ∈ l, x ∉ b := by
  intro b hb hx
  have : x ∈ l.flatten := List.mem_flatten.mpr ⟨b, hb, hx⟩
  rw [← List.count_pos_iff] at this
  omega

theorem filter_mem_length_of_count_one {α : Type} [DecidableEq α] :
    ∀ (batches : List (List α)) (x : α),
      batches.flatten.count x = 1 →
      (batches.filter (fun b => decide (x ∈ b))).length = 1 := by
  intro batches
  induction batches with
  | nil => intro x h; simp at h
  | cons b bs ih =>
    intro x h
    simp only [List.flatten_cons, List.count_append] at h
    by_cases hmem : x ∈ b
    · have hb1 : 1 ≤ b.count x := List.count_pos_iff.mpr hmem
      have hrest : bs.flatten.count x = 0 := by omega
      have hnone := count_flatten_eq_zero bs x hrest
      have hfil : bs.filter (fun b2 => decide (x ∈ b2)) = [] := by
        apply List.filter_eq_nil_iff.mpr
        intro b2 hb2
        simp [hnone b2 hb2]
      rw [List.filter_cons_of_pos (by simp [hmem]), hfil]
      simp
    · have hb0 : b.count x = 0 := List.count_eq_zero.mpr hmem
      rw [List.filter_cons_of_neg (by simp [hmem])]
      exact ih x (by omega)

/-- C3: dropping the last reference appends the handle exactly once to the
shared pending list with no RPC inside the enqueue step, and a handle
enqueued exactly once that has been drained appears in exactly one batched
release RPC (with multiplicity one), never more. -/
theorem handle_release_exactly_once :
    (∀ (workerTarget : String → String)
        (s : List DeviceHandle × List (List DeviceHandle)) (d : DeviceHandle),
      releaseTraceStep workerTarget s (ReleaseEvent.enqueue d) = (s.1 ++ [d], s.2)) ∧
    (∀ (workerTarget : String → String) (events : List ReleaseEvent) (d : DeviceHandle),
      (events.filter (fun e => e == ReleaseEvent.enqueue d)).length = 1 →
      (releaseTrace workerTarget events).1.count d = 0 →
      (releaseTrace workerTarget events).2.flatten.count d = 1 ∧
      ((releaseTrace workerTarget events).2.filter
        (fun b => decide (d ∈ b))).length = 1) := by
  constructor
  · intro workerTarget s d
    rfl
  · intro workerTarget events d henq hpend
    have hcount := releaseTrace_count workerTarget d events ([], [])
    simp only [releaseTrace] at hpend ⊢
    rw [hpend] at hcount
    simp only [List.flatten_nil, List.count_nil, List.length_nil, Nat.add_zero,
      Nat.zero_add, henq] at hcount
    refine ⟨hcount, ?_⟩
    exact filter_mem_length_of_count_one _ d hcount

theorem handle_release_exactly_once_witness :
    (releaseTrace (fun _ => "w")
      [ReleaseEvent.enqueue ⟨"CPU:0", 5⟩, ReleaseEvent.drain]).2.flatten.count
        (⟨"CPU:0", 5⟩ : DeviceHandle) = 1 ∧
    ((releaseTrace (fun _ => "w")
      [ReleaseEvent.enqueue ⟨"CPU:0", 5⟩, ReleaseEvent.drain]).2.filter
        (fun b => decide ((⟨"CPU:0", 5⟩ : DeviceHandle) ∈ b))).length = 1 := by
  exact handle_release_exactly_once.2 (fun _ => "w")
    [ReleaseEvent.enqueue ⟨"CPU:0", 5⟩, ReleaseEvent.drain] ⟨"CPU:0", 5⟩
    (by decide) (by decide)

/-- How one invocation of the releaser ends: all per-session release RPCs
succeeded and the destroy counter received the released-handle count, or a
release RPC failed and the fatal status check fired. -/
inductive ReleaseOutcome where
  | ok (destroyCounterAdd : Nat)
  | fatal (failedSession : String)
deriving DecidableEq

/-- Modelled from the spec: the `XLA_CHECK*` macros come from
`debug_macros.h`, which is not among the sources; per the spec's
propagation policy (section 7) such checks fail loudly and immediately
when their condition does not hold.  With that semantics, the body of
`XrtComputationClient::ReleaseHandles` (lines 1434-1467) — embedded here
with each session RPC's success abstracted by `rpcOk` — runs
`XLA_CHECK_OK(session->session()->Run(...))` per session group (line
1463) and only reaches `destroy_counter->AddValue(released_handles.size())`
(line 1466) when every RPC succeeded; a failed RPC ends in the fatal
check naming that session. -/
def releaseHandlesRun (workerTarget : String → String) (rpcOk : String → Bool)
    (pending : List DeviceHandle) : ReleaseOutcome :=
  match (releaseRpcBatches workerTarget pending).find? (fun g => ! rpcOk g.1) with
  | some g => ReleaseOutcome.fatal g.1
  | none => ReleaseOutcome.ok pending.length

/-- C6 counterexample: with a single pending handle whose batched release
RPC fails, `ReleaseHandles` ends in the fatal `XLA_CHECK_OK` — it does not
swallow the failure into a counter, contradicting the claim that a release
RPC failure never crashes the client and is observable only through a
counter metric. -/
theorem release_failure_not_counter_only :
    releaseHandlesRun (fun _ => "w") (fun _ => false) [⟨"CPU:0", 5⟩]
      = ReleaseOutcome.fatal "w" ∧
    ∀ n, releaseHandlesRun (fun _ => "w") (fun _ => false) [⟨"CPU:0", 5⟩]
      ≠ ReleaseOutcome.ok n := by
  constructor
  · rfl
  · intro n h
    exact ReleaseOutcome.noConfusion (by rw [← h]; rfl : ReleaseOutcome.fatal "w"
      = ReleaseOutcome.ok n)

/-- C6 amended: `ReleaseHandles` records the destroy counter (with the
full released count) exactly when every per-session release RPC succeeds;
any failing release RPC instead fires the fatal status check, which names
a failing session. -/
theorem release_failure_is_fatal_check (workerTarget : String → String)
    (rpcOk : String → Bool) (pending : List DeviceHandle) :
    (releaseHandlesRun workerTarget rpcOk pending = ReleaseOutcome.ok pending.length ↔
      ∀ g ∈ releaseRpcBatches workerTarget pending, rpcOk g.1 = true) ∧
    (∀ s, releaseHandlesRun workerTarget rpcOk pending = ReleaseOutcome.fatal s →
      rpcOk s = false ∧ ∃ g ∈ releaseRpcBatches workerTarget pending, g.1 = s) := by
  constructor
  · constructor
    · intro h
      intro g hg
      by_contra hfail
      have hfind : ((releaseRpcBatches workerTarget pending).find?
          (fun g => ! rpcOk g.1)).isSome := by
        apply List.find?_isSome.mpr
        exact ⟨g, hg, by simp [hfail]⟩
      unfold releaseHandlesRun at h
      rcases hsome : (releaseRpcBatches workerTarget pending).find?
          (fun g => ! rpcOk g.1) with _ | g2
      · rw [hsome] at hfind; simp at hfind
      · rw [hsome] at h
        exact ReleaseOutcome.noConfusion h
    · intro hall
      unfold releaseHandlesRun
      have hfind : (releaseRpcBatches workerTarget pending).find?
          (fun g => ! rpcOk g.1) = none := by
        apply List.find?_eq_none.mpr
        intro g hg
        simp [hall g hg]
      rw [hfind]
  · intro s h
    unfold releaseHandlesRun at h
    rcases hsome : (releaseRpcBatches workerTarget pending).find?
        (fun g => ! rpcOk g.1) with _ | g
    · rw [hsome] at h
      exact ReleaseOutcome.noConfusion h
    · rw [hsome] at h
      have hring : g.1 = s := by
        injection h
      have hp := List.find?_some hsome
      have hmem := List.mem_of_find?_eq_some hsome
      simp only [Bool.not_eq_true'] at hp
      exact ⟨by rw [← hring]; exact hp, g, hmem, hring⟩

theorem release_failure_is_fatal_check_witness :
    (fun (_ : String) => false) "w" = false ∧
    ∃ g ∈ releaseRpcBatches (fun _ => "w") [(⟨"CPU:0", 5⟩ : DeviceHandle)], g.1 = "w" := by
  exact (release_failure_is_fatal_check (fun _ => "w") (fun _ => false)
    [⟨"CPU:0", 5⟩]).2 "w" rfl

/-- Embedding of `XrtComputationClient::GetEffectiveDevice` (lines
1277-1290), over device strings as character lists.  An empty device
string resolves to the configured default device; a device string whose
first character is ':' (ordinal-only form) resolves to the default
device's kind — the characters of the default before its first ':',
whose existence line 1286 asserts with `XLA_CHECK_NE` (embedded as
`none`) — followed by the given string; any other device string is used
unchanged. -/
def getEffectiveDevice (defaultDevice : List Char) (device : List Char) :
    Option (List Char) :=
  if device.isEmpty then some defaultDevice
  else if device.head? = some ':' then
    if (defaultDevice.indexOf ':') < defaultDevice.length then
      some (defaultDevice.take (defaultDevice.indexOf ':') ++ device)
    else none
  else some device

theorem indexOf_append_colon (kind rest : List Char) (h : ':' ∉ kind) :
    (kind ++ ':' :: rest).indexOf ':' = kind.length := by
  induction kind with
  | nil => simp
  | cons c kind ih =>
    have hc : c ≠ ':' := by
      intro hc
      exact h (by rw [hc]; exact List.mem_cons_self _ _)
    have hmem : ':' ∉ kind := fun hm => h (List.mem_cons_of_mem _ hm)
    simp only [List.cons_append, List.length_cons]
    rw [List.indexOf_cons_ne _ hc, ih hmem]

/-- C10: an empty device string resolves to the default device; an
ordinal-only device string beginning with ':' resolves to the default
device's kind followed by the given string; any other device string is
used unchanged. -/
theorem effective_device_resolution :
    (∀ defaultDevice : List Char, getEffectiveDevice defaultDevice [] = some defaultDevice) ∧
    (∀ (kind ordinal rest : List Char), ':' ∉ kind →
      getEffectiveDevice (kind ++ ':' :: rest) (':' :: ordinal)
        = some (kind ++ ':' :: ordinal)) ∧
    (∀ (defaultDevice device : List Char), device ≠ [] → device.head? ≠ some ':' →
      getEffectiveDevice defaultDevice device = some device) := by
  refine ⟨fun d => rfl, ?_, ?_⟩
  · intro kind ordinal rest h
    unfold getEffectiveDevice
    rw [if_neg (by simp), if_pos (by simp)]
    rw [indexOf_append_colon kind rest h]
    rw [if_pos (by simp only [List.length_append, List.length_cons]; omega)]
    rw [List.take_left]
  · intro defaultDevice device hne hcolon
    unfold getEffectiveDevice
    rw [if_neg (by simpa [List.isEmpty_iff] using hne), if_neg hcolon]

theorem effective_device_resolution_witness :
    getEffectiveDevice (String.toList "TPU:0") (String.toList ":3")
      = some (String.toList "TPU:3") := by
  have h := effective_device_resolution.2.1 (String.toList "TPU") (String.toList "3")
    (String.toList "0") (by decide)
  simpa using h

/-- A compiled program as the client tracks it
(`XrtComputationClient::XrtComputation`): the server-side int64 handle and
the device it was compiled against. -/
structure XrtComputation where
  handle : Int
  compilationDevice : String
deriving DecidableEq

/-- Modelled from the spec: the compilation cache (`util::Cache`,
constructed at line 596 with capacity `XLA_COMPILATION_CACHE_SIZE`, its
implementation not among the sources) is a bounded LRU keyed by
`CompilationCacheKey`; entries are kept most recent first. -/
structure CompilationCache (K V : Type) where
  capacity : Nat
  entries : List (K × V)

/-- Modelled from the spec: `Get` returns the cached value on a hit,
refreshing the entry's recency; `none` on a miss. -/
def lruGet {K V : Type} [DecidableEq K] (c : CompilationCache K V) (k : K) :
    Option V × CompilationCache K V :=
  match c.entries.find? (fun e => e.1 == k) with
  | some e => (some e.2, ⟨c.capacity, (k, e.2) :: c.entries.filter (fun e2 => !(e2.1 == k))⟩)
  | none => (none, c)

/-- Modelled from the spec: `Add` inserts the value at the front of the
recency order and evicts beyond capacity. -/
def lruAdd {K V : Type} [DecidableEq K] (c : CompilationCache K V) (k : K) (v : V) :
    CompilationCache K V :=
  ⟨c.capacity, ((k, v) :: c.entries.filter (fun e2 => !(e2.1 == k))).take c.capacity⟩

/-- Embedding of the per-instance logic of `XrtComputationClient::Compile`
(lines 830-897) for a batch of one instance: build the cache key from the
resource domain (`GetResourceDomain(device)`, the device's worker target)
and the serialized program; a cache hit returns the cached program
immediately with no compile RPC (lines 838, 859-860); a miss issues the
compile RPC — the server's returned handle abstracted by `compileAlloc` —
wraps the handle and adds it to the cache (lines 885-890).  Returns
(program, cache afterwards, number of compile RPCs issued). -/
def compileOne {C : Type} [DecidableEq C] (workerTarget : String → String)
    (compileAlloc : String × C → Int)
    (cache : CompilationCache (String × C) XrtComputation)
    (device : String) (comp : C) :
    XrtComputation × CompilationCache (String × C) XrtComputation × Nat :=
  match lruGet cache (workerTarget device, comp) with
  | (some prog, cache2) => (prog, cache2, 0)
  | (none, cache2) =>
    (XrtComputation.mk (compileAlloc (workerTarget device, comp)) device,
     lruAdd cache2 (workerTarget device, comp)
       (XrtComputation.mk (compileAlloc (workerTarget device, comp)) device),
     1)

/-- Modelled from the spec: dropping the caller's reference to a compiled
program releases the server handle only when the reference-counted release
token is the last one; since `compilation_cache_.Add` stores the shared
pointer, the cache itself holds a reference, so the drop enqueues a
release only when the program is no longer cached. -/
def dropCallerRef {C : Type} [DecidableEq C]
    (cache : CompilationCache (String × C) XrtComputation) (prog : XrtComputation)
    (released : List DeviceHandle) : List DeviceHandle :=
  if (cache.entries.map Prod.snd).contains prog then released
  else released ++ [⟨prog.compilationDevice, prog.handle⟩]

theorem lruGet_singleton_hit {K V : Type} [DecidableEq K] (capacity : Nat) (k : K)
    (v : V) :
    lruGet (⟨capacity, [(k, v)]⟩ : CompilationCache K V) k
      = (some v, ⟨capacity, [(k, v)]⟩) := by
  have hbeq : (k == k) = true := beq_self_eq_true' k
  unfold lruGet
  simp [List.find?, List.filter, hbeq]

/-- The C4 scenario: compile `comp` for `device` against a cold cache,
drop the caller's reference to the result, compile the identical `comp`
for `device` again.  Returns (first program, second program, total compile
RPCs, handles queued for release by the drop). -/
def compileTwiceWithDrop {C : Type} [DecidableEq C] (workerTarget : String → String)
    (compileAlloc : String × C → Int) (capacity : Nat) (device : String) (comp : C) :
    XrtComputation × XrtComputation × Nat × List DeviceHandle :=
  let r1 := compileOne workerTarget compileAlloc ⟨capacity, []⟩ device comp
  let released := dropCallerRef r1.2.1 r1.1 []
  let r2 := compileOne workerTarget compileAlloc r1.2.1 device comp
  (r1.1, r2.1, r1.2.2 + r2.2.2, released)

/-- C4: compiling the same computation against the same resource domain
twice returns programs referencing the same server handle while issuing
exactly one compile RPC in total, and the caller dropping its reference to
the first result before the second call enqueues no release (the cache
retains the program), so the second call still issues zero compile RPCs. -/
theorem compile_cache_idempotent {C : Type} [DecidableEq C]
    (workerTarget : String → String) (compileAlloc : String × C → Int)
    (capacity : Nat) (device : String) (comp : C) (hcap : 1 ≤ capacity) :
    (compileTwiceWithDrop workerTarget compileAlloc capacity device comp).1.handle
      = (compileTwiceWithDrop workerTarget compileAlloc capacity device comp).2.1.handle ∧
    (compileTwiceWithDrop workerTarget compileAlloc capacity device comp).2.2.1 = 1 ∧
    (compileTwiceWithDrop workerTarget compileAlloc capacity device comp).2.2.2 = [] := by
  have hmiss : lruGet (⟨capacity, []⟩ : CompilationCache (String × C) XrtComputation)
      (workerTarget device, comp)
      = (none, ⟨capacity, []⟩) := by
    simp [lruGet]
  have hadd : lruAdd (⟨capacity, []⟩ : CompilationCache (String × C) XrtComputation)
      (workerTarget device, comp)
      (XrtComputation.mk (compileAlloc (workerTarget device, comp)) device)
      = ⟨capacity, [((workerTarget device, comp),
          XrtComputation.mk (compileAlloc (workerTarget device, comp)) device)]⟩ := by
    unfold lruAdd
    simp only [List.filter_nil]
    congr 1
    apply List.take_of_length_le
    simpa using hcap
  have hr1 : compileOne workerTarget compileAlloc ⟨capacity, []⟩ device comp
      = (XrtComputation.mk (compileAlloc (workerTarget device, comp)) device,
         lruAdd (⟨capacity, []⟩ : CompilationCache (String × C) XrtComputation)
           (workerTarget device, comp)
           (XrtComputation.mk (compileAlloc (workerTarget device, comp)) device), 1) := by
    unfold compileOne
    rw [hmiss]
  have hhit : lruGet (⟨capacity, [((workerTarget device, comp),
        XrtComputation.mk (compileAlloc (workerTarget device, comp)) device)]⟩ :
        CompilationCache (String × C) XrtComputation) (workerTarget device, comp)
      = (some (XrtComputation.mk (compileAlloc (workerTarget device, comp)) device),
         ⟨capacity, [((workerTarget device, comp),
           XrtComputation.mk (compileAlloc (workerTarget device, comp)) device)]⟩) :=
    lruGet_singleton_hit capacity (workerTarget device, comp)
      (XrtComputation.mk (compileAlloc (workerTarget device, comp)) device)
  have hdrop : dropCallerRef (⟨capacity, [((workerTarget device, comp),
        XrtComputation.mk (compileAlloc (workerTarget device, comp)) device)]⟩ :
        CompilationCache (String × C) XrtComputation)
      (XrtComputation.mk (compileAlloc (workerTarget device, comp)) device) [] = [] := by
    simp [dropCallerRef]
  have hr2 : compileOne workerTarget compileAlloc
      (⟨capacity, [((workerTarget device, comp),
        XrtComputation.mk (compileAlloc (workerTarget device, comp)) device)]⟩ :
        CompilationCache (String × C) XrtComputation) device comp
      = (XrtComputation.mk (compileAlloc (workerTarget device, comp)) device,
         ⟨capacity, [((workerTarget device, comp),
           XrtComputation.mk (compileAlloc (workerTarget device, comp)) device)]⟩, 0) := by
    unfold compileOne
    rw [hhit]
  unfold compileTwiceWithDrop
  rw [hr1]
  simp only
  rw [hadd]
  rw [hdrop, hr2]
  exact ⟨rfl, rfl, rfl⟩

theorem compile_cache_idempotent_witness :
    (compileTwiceWithDrop (fun _ => "w") (fun _ => (9 : Int)) 64 "CPU:0" (42 : Nat)).1.handle
      = (compileTwiceWithDrop (fun _ => "w") (fun _ => (9 : Int)) 64 "CPU:0"
          (42 : Nat)).2.1.handle ∧
    (compileTwiceWithDrop (fun _ => "w") (fun _ => (9 : Int)) 64 "CPU:0" (42 : Nat)).2.2.1
      = 1 ∧
    (compileTwiceWithDrop (fun _ => "w") (fun _ => (9 : Int)) 64 "CPU:0" (42 : Nat)).2.2.2
      = [] := by
  exact compile_cache_idempotent (fun _ => "w") (fun _ => (9 : Int)) 64 "CPU:0" 42
    (by omega)

theorem keys_assocUpd {K V : Type} [DecidableEq K] (m : List (K × List V)) (k : K)
    (v : V) :
    (assocUpd m k v).map Prod.fst
      = if k ∈ m.map Prod.fst then m.map Prod.fst else m.map Prod.fst ++ [k] := by
  induction m with
  | nil => simp [assocUpd]
  | cons g rest ih =>
    obtain ⟨k2, vs⟩ := g
    by_cases hk : k = k2
    · subst hk
      simp [assocUpd]
    · simp only [assocUpd, if_neg hk, List.map_cons]
      rw [ih]
      by_cases hin : k ∈ rest.map Prod.fst
      · rw [if_pos hin, if_pos (by simp [hin])]
      · rw [if_neg hin, if_neg (by simp [hin, hk])]
        simp

theorem keys_groupByKey {K V : Type} [DecidableEq K] (keyOf : V → K) :
    ∀ (l : List V) (m : List (K × List V)),
      (m.map Prod.fst).Nodup →
      (((l.foldl (fun m v => assocUpd m (keyOf v) v) m).map Prod.fst).Nodup ∧
        ∀ t, t ∈ (l.foldl (fun m v => assocUpd m (keyOf v) v) m).map Prod.fst ↔
          t ∈ m.map Prod.fst ∨ ∃ x ∈ l, keyOf x = t) := by
  intro l
  induction l with
  | nil =>
    intro m hm
    exact ⟨hm, by simp⟩
  | cons v l ih =>
    intro m hm
    simp only [List.foldl_cons]
    have hupd_nodup : ((assocUpd m (keyOf v) v).map Prod.fst).Nodup := by
      rw [keys_assocUpd]
      by_cases hin : keyOf v ∈ m.map Prod.fst
      · rw [if_pos hin]; exact hm
      · rw [if_neg hin]
        simp only [List.nodup_append, List.nodup_singleton]
        exact ⟨hm, trivial, by simpa using hin⟩
    obtain ⟨hn, hmem⟩ := ih (assocUpd m (keyOf v) v) hupd_nodup
    refine ⟨hn, ?_⟩
    intro t
    rw [hmem t]
    have hkm : t ∈ (assocUpd m (keyOf v) v).map Prod.fst ↔
        t ∈ m.map Prod.fst ∨ t = keyOf v := by
      rw [keys_assocUpd]
      by_cases hin : keyOf v ∈ m.map Prod.fst
      · rw [if_pos hin]
        constructor
        · exact Or.inl
        · rintro (h | rfl)
          · exact h
          · exact hin
      · rw [if_neg hin]
        simp [List.mem_append]
    rw [hkm]
    constructor
    · rintro ((h | rfl) | ⟨x, hx, rfl⟩)
      · exact Or.inl h
      · exact Or.inr ⟨v, List.mem_cons_self _ _, rfl⟩
      · exact Or.inr ⟨x, List.mem_cons_of_mem _ hx, rfl⟩
    · rintro (h | ⟨x, hx, rfl⟩)
      · exact Or.inl (Or.inl h)
      · rcases List.mem_cons.mp hx with rfl | hx
        · exact Or.inl (Or.inr rfl)
        · exact Or.inr ⟨x, hx, rfl⟩

theorem keys_groupByKey_spec {K V : Type} [DecidableEq K] (keyOf : V → K) (l : List V) :
    ((groupByKey keyOf l).map Prod.fst).Nodup ∧
    ∀ t, t ∈ (groupByKey keyOf l).map Prod.fst ↔ ∃ x ∈ l, keyOf x = t := by
  have h := keys_groupByKey keyOf l [] (by simp)
  unfold groupByKey
  refine ⟨h.1, fun t => ?_⟩
  rw [h.2 t]
  simp

/-- Embedding of `XrtComputationClient::RunComputations` (lines 960-1021):
replica indices are grouped into `session_replicas` by the session of
their (effective) device's worker target — `targetOf` composes
`GetWorkerForDevice` with `GetEffectiveDevice` — one `Run` RPC carrying
one exec node per replica is issued per session, and output `k` of a
session's RPC is routed back to result slot `replicas[k]`.  The server's
execution result for replica `i`'s exec node is abstracted by
`execResult i`.  Returns the result slots and the RPC (= session) count. -/
def runComputations {R : Type} (targetOf : String → String) (execResult : Nat → R)
    (devices : List String) : List (Option R) × Nat :=
  ((groupVals (groupByKey (fun i => targetOf (devices.getD i ""))
        (List.range devices.length))).foldl
      (fun acc i => acc.set i (some (execResult i)))
      (List.replicate devices.length none),
   (groupByKey (fun i => targetOf (devices.getD i "")) (List.range devices.length)).length)

/-- C7: executions are grouped by the worker target of each device, so the
number of sessions (and of run RPCs) equals the number of distinct targets
— devices sharing one endpoint share a single session and RPC — while
result slot `i` always receives replica `i`'s execution result regardless
of grouping; in particular two devices on one endpoint give exactly one
session/RPC and two results in device order. -/
theorem run_computations_grouping :
    (∀ (R : Type) (targetOf : String → String) (execResult : Nat → R)
        (devices : List String),
      (runComputations targetOf execResult devices).1.length = devices.length ∧
      (∀ i, i < devices.length →
        (runComputations targetOf execResult devices).1[i]? = some (some (execResult i))) ∧
      ((groupByKey (fun i => targetOf (devices.getD i ""))
          (List.range devices.length)).map Prod.fst).Nodup ∧
      (∀ t, t ∈ (groupByKey (fun i => targetOf (devices.getD i ""))
          (List.range devices.length)).map Prod.fst ↔
        ∃ i, i < devices.length ∧ targetOf (devices.getD i "") = t)) ∧
    (runComputations (fun _ => "grpc://w") (fun i => i) ["CPU:0", "CPU:1"]
      = ([some 0, some 1], 1)) := by
  constructor
  · intro R targetOf execResult devices
    have hmemv : ∀ i, i ∈ groupVals (groupByKey
        (fun i => targetOf (devices.getD i ""))
        (List.range devices.length)) ↔ i < devices.length := by
      intro i
      rw [mem_groupVals_groupByKey, List.mem_range]
    refine ⟨?_, ?_, ?_, ?_⟩
    · unfold runComputations
      simp only
      rw [foldl_set_length_gen (fun (i : Nat) => i) (fun i => some (execResult i))]
      simp
    · intro i hi
      unfold runComputations
      simp only
      refine foldl_proj_reach
        (fun (acc : List (Option R)) (w : Nat) => acc.set w (some (execResult w)))
        (fun acc => acc[i]?) (some (some (execResult i)))
        (fun acc => acc.length = devices.length) _ _ ?_ ?_ ?_ (by simp)
      · intro s w _ hP
        simp only [List.length_set]
        exact hP
      · intro s w hw hP
        simp only
        by_cases heq : w = i
        · subst heq
          right
          exact List.getElem?_set_eq_of_lt _ (by omega)
        · left
          exact List.getElem?_set_ne heq
      · refine ⟨i, (hmemv i).mpr hi, ?_⟩
        intro s hP
        simp only
        exact List.getElem?_set_eq_of_lt _ (by omega)
    · exact (keys_groupByKey_spec _ (List.range devices.length)).1
    · intro t
      rw [(keys_groupByKey_spec _ (List.range devices.length)).2 t]
      simp [List.mem_range]
  · rfl

theorem run_computations_grouping_witness :
    (runComputations (fun _ => "grpc://w") (fun i => i) ["CPU:0", "CPU:1"]).1[1]?
      = some (some 1) := by
  have h := (run_computations_grouping.1 Nat (fun _ => "grpc://w") (fun i => i)
    ["CPU:0", "CPU:1"]).2.1 1 (by simp)
  simpa using h

/-- A device-resident value for the chained-execution semantics: a leaf
buffer or a tuple of values. -/
inductive Val where
  | leaf (payload : Int)
  | tuple (elems : List Val)

/-- One input edge of an `ExecuteChainedOp` (`ExecuteChainedOp::Input`):
producer op index and optional tuple output index. -/
structure ChainedInput where
  opIndex : Nat
  outputIndex : Option Nat

/-- One declared output of an `ExecuteChainedOp`: target result slot and
optional tuple output index. -/
structure ChainedOutput where
  resultIndex : Nat
  outputIndex : Option Nat

/-- The payload of an `ExecuteChainedOp`: device data (an `XrtData` with
its shape and handle) or a compiled computation (result program shape and
handle).  The source dispatches on `op.device_data != nullptr`. -/
inductive ChainedSource where
  | data (shape : XlaShape) (handle : Int)
  | computation (resultShape : XlaShape) (handle : Int)

/-- A chained-execution DAG node (`ComputationClient::ExecuteChainedOp`). -/
structure ExecuteChainedOp where
  source : ChainedSource
  inputs : List ChainedInput
  outputs : List ChainedOutput

def dummyChainedOp : ExecuteChainedOp :=
  ⟨ChainedSource.data (XlaShape.tuple []) 0, [], []⟩

/-- The wire encoding of an optional tuple index used by the plan protos:
`0` means unset (whole result), `k + 1` selects tuple element `k`
(lines 1083-1084 and 1096-1097 apply the `+ 1`). -/
def encodeIdx : Option Nat → Nat
  | none => 0
  | some k => k + 1

/-- Tuple element access with a default (out-of-contract selections,
which the real runtime rejects, are left at an arbitrary value). -/
def elemD : Val → Nat → Val
  | Val.tuple vs, k => vs.getD k (Val.tuple [])
  | _, _ => Val.tuple []

/-- Select a (possibly whole) tuple element by its wire encoding. -/
def select (v : Val) : Nat → Val
  | 0 => v
  | k + 1 => elemD v k

def opShape : ChainedSource → XlaShape
  | ChainedSource.data s _ => s
  | ChainedSource.computation s _ => s

/-- Result-slot shape of an output reference: the whole op shape when no
output index is given, else the tuple element shape
(`ShapeUtil::GetTupleElementShape`, here with a default). -/
def shapeSel (s : XlaShape) : Option Nat → XlaShape
  | none => s
  | some k =>
    match s with
    | XlaShape.tuple es => es.getD k (XlaShape.tuple [])
    | _ => XlaShape.tuple []

/-- Client-side fatal checks of the chained execution paths, tagged with
the index of the op whose processing fired them. -/
inductive ChainedError where
  | badInput (opIndex : Nat)
  | badArgIndex (opIndex : Nat)
  | badOutput (opIndex : Nat)
deriving DecidableEq

/-- Input of an `xrt::XRTChainedExecuteOp` in the plan proto. -/
structure XrtPlanInput where
  op_index : Nat
  output_index : Nat

/-- Output of an `xrt::XRTChainedExecuteOp` in the plan proto. -/
structure XrtPlanOutput where
  result_index : Nat
  output_index : Nat

/-- One op of an `xrt::XRTChainedExecutePlan`: a data handle or a
computation handle with its input edges, plus the declared outputs. -/
inductive XrtPlanOp where
  | dataHandle (handle : Int) (outputs : List XrtPlanOutput)
  | computationHandle (handle : Int) (inputs : List XrtPlanInput)
      (outputs : List XrtPlanOutput)

def encodeOutputs (outputs : List ChainedOutput) : List XrtPlanOutput :=
  outputs.map fun out => ⟨out.resultIndex, encodeIdx out.outputIndex⟩

/-- Input validation and translation of `ExecuteChainedXrt` (lines
1078-1086): every input of a computation op must reference a strictly
earlier op (`XLA_CHECK_LT(input.op_index, i)`, line 1079). -/
def buildPlanInputs (i : Nat) : List ChainedInput → Except ChainedError (List XrtPlanInput)
  | [] => Except.ok []
  | inp :: rest =>
    if inp.opIndex < i then
      (buildPlanInputs i rest).map fun l => ⟨inp.opIndex, encodeIdx inp.outputIndex⟩ :: l
    else Except.error (ChainedError.badInput i)

/-- Grow a shape vector to `n` entries (`result_shapes.resize`, line
1094), new entries default-constructed. -/
def resizeShapes (l : List XlaShape) (n : Nat) : List XlaShape :=
  if l.length < n then l ++ List.replicate (n - l.length) (XlaShape.tuple []) else l

/-- Result-shape bookkeeping for one declared output (lines 1088-1103):
resize the result shapes to cover the slot, then record either the tuple
element shape (`GetTupleElementShape` CHECK-fails unless the op shape is
a tuple and the index is in range) or the whole op shape. -/
def applyPlanOutput (i : Nat) (s : XlaShape) (shapes : List XlaShape)
    (out : ChainedOutput) : Except ChainedError (List XlaShape) :=
  let shapes2 := resizeShapes shapes (out.resultIndex + 1)
  match out.outputIndex with
  | some k =>
    match s with
    | XlaShape.tuple es =>
      if k < es.length then
        Except.ok (shapes2.set out.resultIndex (es.getD k (XlaShape.tuple [])))
      else Except.error (ChainedError.badOutput i)
    | _ => Except.error (ChainedError.badOutput i)
  | none => Except.ok (shapes2.set out.resultIndex s)

def applyPlanOutputs (i : Nat) (s : XlaShape) :
    List ChainedOutput → List XlaShape → Except ChainedError (List XlaShape)
  | [], shapes => Except.ok shapes
  | out :: rest, shapes =>
    match applyPlanOutput i s shapes out with
    | Except.ok shapes2 => applyPlanOutputs i s rest shapes2
    | Except.error e => Except.error e

/-- Plan-construction loop of `ExecuteChainedXrt` (lines 1065-1104): walk
the ops accumulating plan ops and result shapes; all checks here run
before the single `Run` RPC. -/
def buildPlanAux : List ExecuteChainedOp → Nat → List XrtPlanOp → List XlaShape →
    Except ChainedError (List XrtPlanOp × List XlaShape)
  | [], _, planOps, shapes => Except.ok (planOps, shapes)
  | op :: rest, i, planOps, shapes =>
    match op.source with
    | ChainedSource.data _ h =>
      match applyPlanOutputs i (opShape op.source) op.outputs shapes with
      | Except.ok shapes2 =>
        buildPlanAux rest (i + 1) (planOps ++ [XrtPlanOp.dataHandle h
          (encodeOutputs op.outputs)]) shapes2
      | Except.error e => Except.error e
    | ChainedSource.computation _ h =>
      match buildPlanInputs i op.inputs with
      | Except.ok pinputs =>
        match applyPlanOutputs i (opShape op.source) op.outputs shapes with
        | Except.ok shapes2 =>
          buildPlanAux rest (i + 1) (planOps ++ [XrtPlanOp.computationHandle h pinputs
            (encodeOutputs op.outputs)]) shapes2
        | Except.error e => Except.error e
      | Except.error e => Except.error e

/-- Modelled from the spec: the server side of the single chained-execute
RPC (the XRT service is not part of this repository).  Per spec section
4.6 the service executes the plan's DAG: each op's value is its data
handle's buffer or its computation applied to the selected outputs of
earlier ops.  `dataVal` resolves data handles and `compFn` the
computations. -/
def planOpVal (dataVal : Int → Val) (compFn : Int → List Val → Val)
    (vals : List Val) : XrtPlanOp → Val
  | XrtPlanOp.dataHandle h _ => dataVal h
  | XrtPlanOp.computationHandle h inputs _ =>
    compFn h (inputs.map fun inp => select (vals.getD inp.op_index (Val.tuple []))
      inp.output_index)

/-- Modelled from the spec: op values of the plan, computed in op order. -/
def serverEvalVals (dataVal : Int → Val) (compFn : Int → List Val → Val)
    (planOps : List XrtPlanOp) : List Val :=
  planOps.foldl (fun vals p => vals ++ [planOpVal dataVal compFn vals p]) []

def planOutputs : XrtPlanOp → List XrtPlanOutput
  | XrtPlanOp.dataHandle _ outs => outs
  | XrtPlanOp.computationHandle _ _ outs => outs

/-- Modelled from the spec: the server fills the declared result slots in
op order; slots never assigned stay empty. -/
def serverAssign (vals : List Val) :
    List XrtPlanOp → Nat → List (Option Val) → List (Option Val)
  | [], _, slots => slots
  | p :: rest, i, slots =>
    serverAssign vals rest (i + 1)
      ((planOutputs p).foldl
        (fun sl out => sl.set out.result_index
          (some (select (vals.getD i (Val.tuple [])) out.output_index))) slots)

/-- Embedding of `XrtComputationClient::ExecuteChainedXrt` (lines
1047-1126): build the plan and result shapes client-side (all validation
happens here), then issue the single chained-execute `Run` RPC — the
server modelled from the spec — and wrap each returned slot with its
client-computed result shape.  Returns the result slots and the RPC
count. -/
def executeChainedXrt (dataVal : Int → Val) (compFn : Int → List Val → Val)
    (ops : List ExecuteChainedOp) :
    Except ChainedError (List (Option (XlaShape × Val))) × Nat :=
  match buildPlanAux ops 0 [] [] with
  | Except.error e => (Except.error e, 0)
  | Except.ok (planOps, shapes) =>
    (Except.ok ((List.range shapes.length).map fun r =>
      ((serverAssign (serverEvalVals dataVal compFn planOps) planOps 0
          (List.replicate shapes.length none)).getD r none).map
        fun v => (shapes.getD r (XlaShape.tuple []), v)), 1)

/-- Explosion of one execution result into per-element data, as
`GetComputationResults` (lines 1702-1721) produces under
`explode_tuple=true`: a tuple result comes back as one handle per element
(shape `GetTupleElementShape(result_shape, k)`), a non-tuple result as a
single whole handle. -/
def explode (s : XlaShape) (v : Val) : List (XlaShape × Val) :=
  match s with
  | XlaShape.tuple es =>
    (List.range es.length).map fun k => (es.getD k (XlaShape.tuple []), elemD v k)
  | _ => [(s, v)]

/-- Use counting of `ExecuteChainedSplit` (lines 1133-1138): every input
reference of every op increments its producer's use count. -/
def buildUses : List ExecuteChainedOp → List Nat → List Nat
  | [], uses => uses
  | op :: rest, uses =>
    buildUses rest (op.inputs.foldl
      (fun u inp => u.set inp.opIndex (u.getD inp.opIndex 0 + 1)) uses)

/-- State of the split-mode loop: per-op output lists (`ops_outputs`),
remaining use counts, the result slots, and the run RPCs issued so far. -/
structure SplitState where
  opsOutputs : List (List (XlaShape × Val))
  uses : List Nat
  results : List (Option (XlaShape × Val))
  rpcs : Nat

/-- Argument collection of split mode (lines 1153-1161): each input must
reference a strictly earlier op (line 1156) and an in-range entry of the
producer's outputs (line 1157-1158). -/
def splitArgs (opsOutputs : List (List (XlaShape × Val))) (i : Nat) :
    List ChainedInput → Except ChainedError (List (XlaShape × Val))
  | [] => Except.ok []
  | inp :: rest =>
    if inp.opIndex < i then
      if inp.outputIndex.getD 0 < (opsOutputs.getD inp.opIndex []).length then
        (splitArgs opsOutputs i rest).map fun l =>
          (opsOutputs.getD inp.opIndex []).getD (inp.outputIndex.getD 0)
            (XlaShape.tuple [], Val.tuple []) :: l
      else Except.error (ChainedError.badArgIndex i)
    else Except.error (ChainedError.badInput i)

/-- Grow the split-mode result vector (`results.resize`, line 1181); the
new entries are null until assigned. -/
def resizeResults (l : List (Option (XlaShape × Val))) (n : Nat) :
    List (Option (XlaShape × Val)) :=
  if l.length < n then l ++ List.replicate (n - l.length) none else l

/-- Output routing of split mode (lines 1179-1186): for each declared
output, grow the result vector to cover the slot, check the output index
against the op's produced outputs (line 1183), and store the selected
entry. -/
def splitApplyOutputs (i : Nat) (entries : List (XlaShape × Val)) :
    List ChainedOutput → List (Option (XlaShape × Val)) →
    Except ChainedError (List (Option (XlaShape × Val)))
  | [], results => Except.ok results
  | out :: rest, results =>
    let results2 := resizeResults results (out.resultIndex + 1)
    if out.outputIndex.getD 0 < entries.length then
      splitApplyOutputs i entries rest
        (results2.set out.resultIndex
          (some (entries.getD (out.outputIndex.getD 0) (XlaShape.tuple [], Val.tuple []))))
    else Except.error (ChainedError.badOutput i)

/-- Use-count decrements of split mode (lines 1187-1193): after an op
runs, each of its inputs' producers loses one use; a producer whose count
reaches zero has its outputs dropped. -/
def splitDecrement (inputs : List ChainedInput)
    (opsOutputs : List (List (XlaShape × Val))) (uses : List Nat) :
    List (List (XlaShape × Val)) × List Nat :=
  inputs.foldl
    (fun st inp =>
      let u2 := st.2.set inp.opIndex (st.2.getD inp.opIndex 0 - 1)
      if u2.getD inp.opIndex 0 = 0 then (st.1.set inp.opIndex [], u2) else (st.1, u2))
    (opsOutputs, uses)

/-- Main loop of `XrtComputationClient::ExecuteChainedSplit` (lines
1147-1197): data ops publish their single data entry; computation ops
validate and gather arguments, issue their own `Run` RPC — the per-op
execution result abstracted by `compFn` — and publish their exploded
results; each op then routes its declared outputs and releases
no-longer-used intermediate outputs.  Errors stop the loop with the RPCs
issued so far. -/
def executeChainedSplitAux (dataVal : Int → Val) (compFn : Int → List Val → Val) :
    List ExecuteChainedOp → Nat → SplitState → Option ChainedError × SplitState
  | [], _, st => (none, st)
  | op :: rest, i, st =>
    match op.source with
    | ChainedSource.data s h =>
      let entries := [(s, dataVal h)]
      let oo := st.opsOutputs.set i entries
      match splitApplyOutputs i entries op.outputs st.results with
      | Except.error e => (some e, { st with opsOutputs := oo })
      | Except.ok results2 =>
        let du := splitDecrement op.inputs oo st.uses
        executeChainedSplitAux dataVal compFn rest (i + 1)
          { opsOutputs := du.1, uses := du.2, results := results2, rpcs := st.rpcs }
    | ChainedSource.computation s h =>
      match splitArgs st.opsOutputs i op.inputs with
      | Except.error e => (some e, st)
      | Except.ok args =>
        let entries := explode s (compFn h (args.map Prod.snd))
        let oo := st.opsOutputs.set i entries
        match splitApplyOutputs i entries op.outputs st.results with
        | Except.error e => (some e, { st with opsOutputs := oo, rpcs := st.rpcs + 1 })
        | Except.ok results2 =>
          let du := splitDecrement op.inputs oo st.uses
          executeChainedSplitAux dataVal compFn rest (i + 1)
            { opsOutputs := du.1, uses := du.2, results := results2,
              rpcs := st.rpcs + 1 }

/-- Embedding of `XrtComputationClient::ExecuteChainedSplit` (lines
1128-1199): run the split-mode loop from the initial state.  Returns the
result slots (or the first fatal check) and the run-RPC count. -/
def executeChainedSplit (dataVal : Int → Val) (compFn : Int → List Val → Val)
    (ops : List ExecuteChainedOp) :
    Except ChainedError (List (Option (XlaShape × Val))) × Nat :=
  match executeChainedSplitAux dataVal compFn ops 0
      ⟨List.replicate ops.length [], buildUses ops (List.replicate ops.length 0), [], 0⟩ with
  | (some e, st) => (Except.error e, st.rpcs)
  | (none, st) => (Except.ok st.results, st.rpcs)

/-- Whether some computation op's input references an op index at or past
its own position (the condition the validation checks reject). -/
def opInvalid (i : Nat) (op : ExecuteChainedOp) : Bool :=
  match op.source with
  | ChainedSource.computation _ _ => op.inputs.any fun inp => decide (i ≤ inp.opIndex)
  | _ => false

def chainedSeqInvalid (ops : List ExecuteChainedOp) : Bool :=
  (List.range ops.length).any fun i => opInvalid i (ops.getD i dummyChainedOp)

/-- Number of computation ops (each issues one run RPC in split mode). -/
def compCount (ops : List ExecuteChainedOp) : Nat :=
  ops.countP fun op =>
    match op.source with
    | ChainedSource.computation _ _ => true
    | _ => false

theorem xrt_error_no_rpc (dataVal : Int → Val) (compFn : Int → List Val → Val)
    (ops : List ExecuteChainedOp) (e : ChainedError)
    (r : Nat) (h : executeChainedXrt dataVal compFn ops = (Except.error e, r)) :
    r = 0 := by
  unfold executeChainedXrt at h
  rcases hb : buildPlanAux ops 0 [] [] with e2 | pr
  · rw [hb] at h
    have := congrArg Prod.snd h
    simpa using this.symm
  · rw [hb] at h
    obtain ⟨planOps, shapes⟩ := pr
    have := congrArg Prod.fst h
    simp only at this
    exact absurd this (by simp)

theorem buildPlanInputs_ok_valid (i : Nat) :
    ∀ (inputs : List ChainedInput) (r : List XrtPlanInput),
      buildPlanInputs i inputs = Except.ok r → ∀ inp ∈ inputs, inp.opIndex < i := by
  intro inputs
  induction inputs with
  | nil => intro r _ inp hinp; simp at hinp
  | cons inp0 rest ih =>
    intro r h inp hinp
    unfold buildPlanInputs at h
    by_cases hlt : inp0.opIndex < i
    · rw [if_pos hlt] at h
      rcases List.mem_cons.mp hinp with rfl | hinp
      · exact hlt
      · rcases hr : buildPlanInputs i rest with e | r2
        · rw [hr] at h; exact absurd h (by simp [Except.map])
        · exact ih r2 hr inp hinp
    · rw [if_neg hlt] at h
      exact absurd h (by simp)

theorem buildPlanAux_cons_data (s : XlaShape) (hd : Int) (inputs : List ChainedInput)
    (outputs : List ChainedOutput) (rest : List ExecuteChainedOp) (i : Nat)
    (planOps : List XrtPlanOp) (shapes : List XlaShape) :
    buildPlanAux (⟨ChainedSource.data s hd, inputs, outputs⟩ :: rest) i planOps shapes
      = match applyPlanOutputs i s outputs shapes with
        | Except.ok shapes2 =>
          buildPlanAux rest (i + 1)
            (planOps ++ [XrtPlanOp.dataHandle hd (encodeOutputs outputs)]) shapes2
        | Except.error e => Except.error e := rfl

theorem buildPlanAux_cons_comp (s : XlaShape) (hc : Int) (inputs : List ChainedInput)
    (outputs : List ChainedOutput) (rest : List ExecuteChainedOp) (i : Nat)
    (planOps : List XrtPlanOp) (shapes : List XlaShape) :
    buildPlanAux (⟨ChainedSource.computation s hc, inputs, outputs⟩ :: rest) i planOps
        shapes
      = match buildPlanInputs i inputs with
        | Except.ok pinputs =>
          match applyPlanOutputs i s outputs shapes with
          | Except.ok shapes2 =>
            buildPlanAux rest (i + 1)
              (planOps ++ [XrtPlanOp.computationHandle hc pinputs (encodeOutputs outputs)])
              shapes2
          | Except.error e => Except.error e
        | Except.error e => Except.error e := rfl

theorem buildPlanAux_ok_valid :
    ∀ (rest : List ExecuteChainedOp) (i : Nat) (planOps : List XrtPlanOp)
      (shapes : List XlaShape) (r : List XrtPlanOp × List XlaShape),
      buildPlanAux rest i planOps shapes = Except.ok r →
      ∀ k, k < rest.length → opInvalid (i + k) (rest.getD k dummyChainedOp) = false := by
  intro rest
  induction rest with
  | nil => intro i planOps shapes r _ k hk; simp at hk
  | cons op rest ih =>
    intro i planOps shapes r h k hk
    obtain ⟨src, inputs, outputs⟩ := op
    cases src with
    | data s hd =>
      rw [buildPlanAux_cons_data] at h
      rcases hout : applyPlanOutputs i s outputs shapes with e | shapes2
      · rw [hout] at h; exact absurd h (by simp)
      · rw [hout] at h
        cases k with
        | zero => simp [opInvalid]
        | succ k =>
          have hrec := ih (i + 1) _ _ r h k (by simp at hk; omega)
          have heq : i + (k + 1) = (i + 1) + k := by omega
          rw [heq, List.getD_cons_succ]
          exact hrec
    | computation s hc =>
      rw [buildPlanAux_cons_comp] at h
      rcases hin : buildPlanInputs i inputs with e | pinputs
      · rw [hin] at h; exact absurd h (by simp)
      · rw [hin] at h
        rcases hout : applyPlanOutputs i s outputs shapes with e | shapes2
        · rw [hout] at h; exact absurd h (by simp)
        · rw [hout] at h
          cases k with
          | zero =>
            simp only [List.getD_cons_zero, Nat.add_zero, opInvalid]
            rw [List.any_eq_false]
            intro inp hinp
            have := buildPlanInputs_ok_valid i inputs pinputs hin inp hinp
            simp only [decide_eq_true_eq]
            omega
          | succ k =>
            have hrec := ih (i + 1) _ _ r h k (by simp at hk; omega)
            have heq : i + (k + 1) = (i + 1) + k := by omega
            rw [heq, List.getD_cons_succ]
            exact hrec

theorem xrt_invalid_errors (dataVal : Int → Val) (compFn : Int → List Val → Val)
    (ops : List ExecuteChainedOp) (hinv : chainedSeqInvalid ops = true) :
    ∃ e, executeChainedXrt dataVal compFn ops = (Except.error e, 0) := by
  rcases hb : buildPlanAux ops 0 [] [] with e | pr
  · refine ⟨e, ?_⟩
    unfold executeChainedXrt
    rw [hb]
  · exfalso
    unfold chainedSeqInvalid at hinv
    rw [List.any_eq_true] at hinv
    obtain ⟨i, hmem, h2⟩ := hinv
    have hi := List.mem_range.mp hmem
    have hz := buildPlanAux_ok_valid ops 0 [] [] pr hb i hi
    rw [Nat.zero_add] at hz
    rw [hz] at h2
    exact Bool.false_ne_true h2

theorem splitApplyOutputs_error_form (i : Nat) (entries : List (XlaShape × Val)) :
    ∀ (outs : List ChainedOutput) (results : List (Option (XlaShape × Val)))
      (e : ChainedError),
      splitApplyOutputs i entries outs results = Except.error e →
      e = ChainedError.badOutput i := by
  intro outs
  induction outs with
  | nil => intro results e h; exact absurd h (by simp [splitApplyOutputs])
  | cons out rest ih =>
    intro results e h
    unfold splitApplyOutputs at h
    by_cases hlt : out.outputIndex.getD 0 < entries.length
    · rw [if_pos hlt] at h
      exact ih _ e h
    · rw [if_neg hlt] at h
      simpa using h.symm

theorem splitArgs_error_form (opsOutputs : List (List (XlaShape × Val))) (i : Nat) :
    ∀ (inputs : List ChainedInput) (e : ChainedError),
      splitArgs opsOutputs i inputs = Except.error e →
      e = ChainedError.badInput i ∨ e = ChainedError.badArgIndex i := by
  intro inputs
  induction inputs with
  | nil => intro e h; exact absurd h (by simp [splitArgs])
  | cons inp rest ih =>
    intro e h
    unfold splitArgs at h
    by_cases h1 : inp.opIndex < i
    · rw [if_pos h1] at h
      by_cases h2 : inp.outputIndex.getD 0 < (opsOutputs.getD inp.opIndex []).length
      · rw [if_pos h2] at h
        rcases hr : splitArgs opsOutputs i rest with e2 | r2
        · rw [hr] at h
          simp only [Except.map] at h
          rw [Except.error.injEq] at h
          rw [← h]
          exact ih e2 hr
        · rw [hr] at h
          exact absurd h (by simp [Except.map])
      · rw [if_neg h2] at h
        rw [Except.error.injEq] at h
        exact Or.inr h.symm
    · rw [if_neg h1] at h
      rw [Except.error.injEq] at h
      exact Or.inl h.symm

theorem splitAux_cons_data (dataVal : Int → Val) (compFn : Int → List Val → Val)
    (s : XlaShape) (hd : Int) (inputs : List ChainedInput)
    (outputs : List ChainedOutput) (rest : List ExecuteChainedOp) (i : Nat)
    (st : SplitState) :
    executeChainedSplitAux dataVal compFn
        (⟨ChainedSource.data s hd, inputs, outputs⟩ :: rest) i st
      = match splitApplyOutputs i [(s, dataVal hd)] outputs st.results with
        | Except.error e => (some e, { st with opsOutputs := st.opsOutputs.set i [(s, dataVal hd)] })
        | Except.ok results2 =>
          executeChainedSplitAux dataVal compFn rest (i + 1)
            { opsOutputs := (splitDecrement inputs (st.opsOutputs.set i [(s, dataVal hd)]) st.uses).1,
              uses := (splitDecrement inputs (st.opsOutputs.set i [(s, dataVal hd)]) st.uses).2,
              results := results2, rpcs := st.rpcs } := rfl

theorem splitAux_cons_comp (dataVal : Int → Val) (compFn : Int → List Val → Val)
    (s : XlaShape) (hc : Int) (inputs : List ChainedInput)
    (outputs : List ChainedOutput) (rest : List ExecuteChainedOp) (i : Nat)
    (st : SplitState) :
    executeChainedSplitAux dataVal compFn
        (⟨ChainedSource.computation s hc, inputs, outputs⟩ :: rest) i st
      = match splitArgs st.opsOutputs i inputs with
        | Except.error e => (some e, st)
        | Except.ok args =>
          match splitApplyOutputs i (explode s (compFn hc (args.map Prod.snd))) outputs st.results with
          | Except.error e => (some e, { st with opsOutputs := st.opsOutputs.set i (explode s (compFn hc (args.map Prod.snd))), rpcs := st.rpcs + 1 })
          | Except.ok results2 =>
            executeChainedSplitAux dataVal compFn rest (i + 1)
              { opsOutputs := (splitDecrement inputs (st.opsOutputs.set i (explode s (compFn hc (args.map Prod.snd)))) st.uses).1,
                uses := (splitDecrement inputs (st.opsOutputs.set i (explode s (compFn hc (args.map Prod.snd)))) st.uses).2,
                results := results2, rpcs := st.rpcs + 1 } := rfl

theorem splitAux_preRpc_rpcs (dataVal : Int → Val) (compFn : Int → List Val → Val) :
    ∀ (rest : List ExecuteChainedOp) (i : Nat) (st : SplitState)
      (e : ChainedError) (st2 : SplitState) (j : Nat),
      executeChainedSplitAux dataVal compFn rest i st = (some e, st2) →
      (e = ChainedError.badInput j ∨ e = ChainedError.badArgIndex j) →
      i ≤ j ∧ st2.rpcs = st.rpcs + compCount (rest.take (j - i)) := by
  intro rest
  induction rest with
  | nil =>
    intro i st e st2 j h _
    exact absurd (congrArg Prod.fst h) (by simp [executeChainedSplitAux])
  | cons op rest ih =>
    intro i st e st2 j h hj
    obtain ⟨src, inputs, outputs⟩ := op
    cases src with
    | data s hd =>
      rw [splitAux_cons_data] at h
      rcases hout : splitApplyOutputs i [(s, dataVal hd)] outputs st.results with e2 | r2
      · rw [hout] at h
        have he := splitApplyOutputs_error_form i _ outputs st.results e2 hout
        have : e = e2 := by
          have := congrArg Prod.fst h
          simpa using this.symm
        rw [this, he] at hj
        rcases hj with hj | hj
        · exact absurd hj (by simp)
        · exact absurd hj (by simp)
      · rw [hout] at h
        obtain ⟨hij, hr⟩ := ih (i + 1) _ e st2 j h hj
        refine ⟨by omega, ?_⟩
        simp only at hr
        have hji : j - i = (j - (i + 1)) + 1 := by omega
        rw [hji, List.take_succ_cons]
        unfold compCount at hr ⊢
        rw [List.countP_cons]
        simp
        omega
    | computation s hc =>
      rw [splitAux_cons_comp] at h
      rcases hargs : splitArgs st.opsOutputs i inputs with e2 | args
      · rw [hargs] at h
        simp only at h
        have he := splitArgs_error_form st.opsOutputs i inputs e2 hargs
        have he2 : e = e2 ∧ st2 = st := by
          constructor
          · have := congrArg Prod.fst h
            simpa using this.symm
          · have := congrArg Prod.snd h
            simpa using this.symm
        have hji : j = i := by
          rw [he2.1] at hj
          rcases he with he | he <;> rw [he] at hj
          · rcases hj with hj | hj
            · exact ((ChainedError.badInput.injEq _ _).mp hj).symm
            · exact absurd hj (by simp)
          · rcases hj with hj | hj
            · exact absurd hj (by simp)
            · exact ((ChainedError.badArgIndex.injEq _ _).mp hj).symm
        subst hji
        refine ⟨le_refl j, ?_⟩
        rw [he2.2]
        simp [compCount]
      · rw [hargs] at h
        simp only at h
        rcases hout : splitApplyOutputs i
            (explode s (compFn hc (args.map Prod.snd))) outputs st.results with e2 | r2
        · rw [hout] at h
          have he := splitApplyOutputs_error_form i _ outputs st.results e2 hout
          have : e = e2 := by
            have := congrArg Prod.fst h
            simpa using this.symm
          rw [this, he] at hj
          rcases hj with hj | hj
          · exact absurd hj (by simp)
          · exact absurd hj (by simp)
        · rw [hout] at h
          obtain ⟨hij, hr⟩ := ih (i + 1) _ e st2 j h hj
          refine ⟨by omega, ?_⟩
          simp only at hr
          have hji : j - i = (j - (i + 1)) + 1 := by omega
          rw [hji, List.take_succ_cons]
          unfold compCount at hr ⊢
          rw [List.countP_cons]
          simp
          omega

theorem split_badInput_rpcs (dataVal : Int → Val) (compFn : Int → List Val → Val)
    (ops : List ExecuteChainedOp) (j r : Nat)
    (h : executeChainedSplit dataVal compFn ops
      = (Except.error (ChainedError.badInput j), r)) :
    r = compCount (ops.take j) := by
  unfold executeChainedSplit at h
  rcases haux : executeChainedSplitAux dataVal compFn ops 0
      ⟨List.replicate ops.length [], buildUses ops (List.replicate ops.length 0), [], 0⟩
      with ⟨oe, st⟩
  rw [haux] at h
  cases oe with
  | none => exact absurd (congrArg Prod.fst h) (by simp)
  | some e =>
    have he : e = ChainedError.badInput j := by
      have := congrArg Prod.fst h
      simpa using this
    have hr : r = st.rpcs := by
      have := congrArg Prod.snd h
      simpa using this.symm
    subst he
    obtain ⟨_, h2⟩ := splitAux_preRpc_rpcs dataVal compFn ops 0 _
      (ChainedError.badInput j) st j haux (Or.inl rfl)
    simp only at h2
    rw [hr, h2]
    simp

/-- A chained sequence whose second op's input references op index 1 — its
own position — after a first, independent computation op. -/
def chainedOpsSelfRef : List ExecuteChainedOp :=
  [⟨ChainedSource.computation (XlaShape.array 4 [2]) 10, [], []⟩,
   ⟨ChainedSource.computation (XlaShape.array 4 [2]) 11, [⟨1, none⟩], []⟩]

/-- A single computation op whose input references its own index 0. -/
def chainedOpSelfRef0 : List ExecuteChainedOp :=
  [⟨ChainedSource.computation (XlaShape.array 4 [2]) 10, [⟨0, none⟩], []⟩]

/-- C5 counterexample: a sequence whose second op references op index 1 (its
own position) is rejected by the split mode only after the first computation
op's run RPC was issued — `ExecuteChainedSplit` returns the op-1 input check
failure together with one already-performed RPC, so the rejection is not
"before any RPC is issued" in that mode. -/
theorem split_invalid_not_before_rpc :
    chainedSeqInvalid chainedOpsSelfRef = true ∧
    executeChainedSplit (fun _ => Val.leaf 0) (fun _ _ => Val.leaf 7)
        chainedOpsSelfRef
      = (Except.error (ChainedError.badInput 1), 1) :=
  ⟨rfl, rfl⟩

theorem splitArgs_ok_valid (opsOutputs : List (List (XlaShape × Val))) (i : Nat) :
    ∀ (inputs : List ChainedInput) (args : List (XlaShape × Val)),
      splitArgs opsOutputs i inputs = Except.ok args →
      ∀ inp ∈ inputs, inp.opIndex < i := by
  intro inputs
  induction inputs with
  | nil => intro args _ inp hinp; simp at hinp
  | cons inp0 rest ih =>
    intro args h inp hinp
    unfold splitArgs at h
    by_cases h1 : inp0.opIndex < i
    · rw [if_pos h1] at h
      by_cases h2 : inp0.outputIndex.getD 0 < (opsOutputs.getD inp0.opIndex []).length
      · rw [if_pos h2] at h
        rcases List.mem_cons.mp hinp with rfl | hinp2
        · exact h1
        · rcases hr : splitArgs opsOutputs i rest with e | r2
          · rw [hr] at h
            exact absurd h (by simp [Except.map])
          · exact ih r2 hr inp hinp2
      · rw [if_neg h2] at h
        exact absurd h (by simp)
    · rw [if_neg h1] at h
      exact absurd h (by simp)

theorem splitAux_none_valid (dataVal : Int → Val) (compFn : Int → List Val → Val) :
    ∀ (rest : List ExecuteChainedOp) (i : Nat) (st st2 : SplitState),
      executeChainedSplitAux dataVal compFn rest i st = (none, st2) →
      ∀ k, k < rest.length → opInvalid (i + k) (rest.getD k dummyChainedOp) = false := by
  intro rest
  induction rest with
  | nil => intro i st st2 _ k hk; simp at hk
  | cons op rest ih =>
    intro i st st2 h k hk
    obtain ⟨src, inputs, outputs⟩ := op
    cases src with
    | data s hd =>
      rw [splitAux_cons_data] at h
      rcases hout : splitApplyOutputs i [(s, dataVal hd)] outputs st.results with e | r2
      · rw [hout] at h
        exact absurd (congrArg Prod.fst h) (by simp)
      · rw [hout] at h
        cases k with
        | zero => simp [opInvalid]
        | succ k =>
          have hrec := ih (i + 1) _ st2 h k (by simp at hk; omega)
          have heq : i + (k + 1) = (i + 1) + k := by omega
          rw [heq, List.getD_cons_succ]
          exact hrec
    | computation s hcm =>
      rw [splitAux_cons_comp] at h
      rcases hargs : splitArgs st.opsOutputs i inputs with e | args
      · rw [hargs] at h
        exact absurd (congrArg Prod.fst h) (by simp)
      · rw [hargs] at h
        simp only at h
        rcases hout : splitApplyOutputs i (explode s (compFn hcm (args.map Prod.snd)))
            outputs st.results with e | r2
        · rw [hout] at h
          exact absurd (congrArg Prod.fst h) (by simp)
        · rw [hout] at h
          cases k with
          | zero =>
            simp only [List.getD_cons_zero, Nat.add_zero, opInvalid]
            rw [List.any_eq_false]
            intro inp hinp
            have := splitArgs_ok_valid st.opsOutputs i inputs args hargs inp hinp
            simp only [decide_eq_true_eq]
            omega
          | succ k =>
            have hrec := ih (i + 1) _ st2 h k (by simp at hk; omega)
            have heq : i + (k + 1) = (i + 1) + k := by omega
            rw [heq, List.getD_cons_succ]
            exact hrec

theorem split_invalid_errors (dataVal : Int → Val) (compFn : Int → List Val → Val)
    (ops : List ExecuteChainedOp) (hinv : chainedSeqInvalid ops = true) :
    ∃ e r, executeChainedSplit dataVal compFn ops = (Except.error e, r) := by
  rcases haux : executeChainedSplitAux dataVal compFn ops 0
      ⟨List.replicate ops.length [], buildUses ops (List.replicate ops.length 0), [], 0⟩
      with ⟨oe, st⟩
  cases oe with
  | some e =>
    refine ⟨e, st.rpcs, ?_⟩
    unfold executeChainedSplit
    rw [haux]
  | none =>
    exfalso
    unfold chainedSeqInvalid at hinv
    rw [List.any_eq_true] at hinv
    obtain ⟨i, hmem, h2⟩ := hinv
    have hi := List.mem_range.mp hmem
    have hz := splitAux_none_valid dataVal compFn ops 0 _ st haux i hi
    rw [Nat.zero_add] at hz
    rw [hz] at h2
    exact Bool.false_ne_true h2

/-- C5: a sequence in which some computation op's input references an op
index at or past its own position is rejected by both chained-execution
modes — an invalid sequence always makes `ExecuteChainedXrt` and
`ExecuteChainedSplit` fail — but only the single-RPC mode rejects before
any RPC: every `ExecuteChainedXrt` failure is reported with zero RPCs
issued, while a split-mode input-check rejection at op `j` comes after one
run RPC for every computation op preceding `j` (zero only when no
computation op precedes the offender). -/
theorem chained_invalid_rejection (dataVal : Int → Val)
    (compFn : Int → List Val → Val) (ops : List ExecuteChainedOp) :
    (chainedSeqInvalid ops = true →
      (∃ e, executeChainedXrt dataVal compFn ops = (Except.error e, 0)) ∧
      ∃ e r, executeChainedSplit dataVal compFn ops = (Except.error e, r)) ∧
    (∀ e r, executeChainedXrt dataVal compFn ops = (Except.error e, r) → r = 0) ∧
    (∀ j r, executeChainedSplit dataVal compFn ops
        = (Except.error (ChainedError.badInput j), r) →
      r = compCount (ops.take j)) :=
  ⟨fun hinv => ⟨xrt_invalid_errors dataVal compFn ops hinv,
     split_invalid_errors dataVal compFn ops hinv⟩,
   fun e r h => xrt_error_no_rpc dataVal compFn ops e r h,
   fun j r h => split_badInput_rpcs dataVal compFn ops j r h⟩

/-- A self-referencing single op is rejected by both modes — by the XRT
mode with zero RPCs — and its split-mode rejection at op 0 accounts for
the zero computation ops preceding it. -/
theorem chained_invalid_rejection_witness :
    ((∃ e, executeChainedXrt (fun _ => Val.leaf 0) (fun _ _ => Val.leaf 7)
        chainedOpSelfRef0 = (Except.error e, 0)) ∧
      ∃ e r, executeChainedSplit (fun _ => Val.leaf 0) (fun _ _ => Val.leaf 7)
        chainedOpSelfRef0 = (Except.error e, r)) ∧
    (0 : Nat) = 0 ∧ (0 : Nat) = compCount (chainedOpSelfRef0.take 0) :=
  ⟨(chained_invalid_rejection (fun _ => Val.leaf 0) (fun _ _ => Val.leaf 7)
      chainedOpSelfRef0).1 rfl,
   (chained_invalid_rejection (fun _ => Val.leaf 0) (fun _ _ => Val.leaf 7)
      chainedOpSelfRef0).2.1 (ChainedError.badInput 0) 0 rfl,
   (chained_invalid_rejection (fun _ => Val.leaf 0) (fun _ _ => Val.leaf 7)
      chainedOpSelfRef0).2.2 0 0 rfl⟩

/-- The last value written to slot `r` by a write stream (later writes
win); `none` when no write targets `r`. -/
def lastWrite {α : Type} : List (Nat × α) → Nat → Option α
  | [], _ => none
  | w :: ws, r =>
    match lastWrite ws r with
    | some a => some a
    | none => if w.1 = r then some w.2 else none

/-- One past the largest slot a write stream targets. -/
def streamBound {α : Type} : List (Nat × α) → Nat
  | [] => 0
  | w :: ws => max (w.1 + 1) (streamBound ws)

/-- Grow a list to `n` entries with default `d` (the shared shape of
`result_shapes.resize` and `results.resize` in the chained paths). -/
def growTo {α : Type} (d : α) (l : List α) (n : Nat) : List α :=
  if l.length < n then l ++ List.replicate (n - l.length) d else l

/-- Apply one write: grow the list to cover the slot, then store. -/
def growSet {α : Type} (d : α) (l : List α) (w : Nat × α) : List α :=
  (growTo d l (w.1 + 1)).set w.1 w.2

/-- Apply a write stream with grow-on-demand semantics. -/
def applyWrites {α : Type} (d : α) (l : List α) (ws : List (Nat × α)) : List α :=
  ws.foldl (growSet d) l

/-- Apply a write stream by plain in-range stores (out-of-range writes
are dropped, as `List.set` does). -/
def applySets {α : Type} (l : List α) (ws : List (Nat × α)) : List α :=
  ws.foldl (fun l w => l.set w.1 w.2) l

theorem length_growTo {α : Type} (d : α) (l : List α) (n : Nat) :
    (growTo d l n).length = max l.length n := by
  unfold growTo
  split <;> simp <;> omega

theorem getElem?_growTo {α : Type} (d : α) (l : List α) (n r : Nat) :
    (growTo d l n)[r]? =
      if r < l.length then l[r]? else if r < n then some d else none := by
  unfold growTo
  by_cases h1 : l.length < n
  · rw [if_pos h1, List.getElem?_append]
    by_cases h2 : r < l.length
    · rw [if_pos h2, if_pos h2]
    · rw [if_neg h2, if_neg h2, List.getElem?_replicate]
      by_cases h3 : r < n
      · rw [if_pos h3, if_pos (by omega)]
      · rw [if_neg h3, if_neg (by omega)]
  · rw [if_neg h1]
    by_cases h2 : r < l.length
    · rw [if_pos h2]
    · rw [if_neg h2, if_neg (by omega)]
      exact List.getElem?_eq_none (by omega)

theorem length_growSet {α : Type} (d : α) (l : List α) (w : Nat × α) :
    (growSet d l w).length = max l.length (w.1 + 1) := by
  unfold growSet
  rw [List.length_set, length_growTo]

theorem getElem?_growSet {α : Type} (d : α) (l : List α) (w : Nat × α) (r : Nat) :
    (growSet d l w)[r]? =
      if w.1 = r then some w.2
      else if r < l.length then l[r]? else if r < w.1 + 1 then some d else none := by
  unfold growSet
  by_cases h : w.1 = r
  · rw [if_pos h, h]
    rw [List.getElem?_set_eq_of_lt]
    rw [length_growTo]
    omega
  · rw [if_neg h, List.getElem?_set_ne h, getElem?_growTo]

theorem length_applyWrites {α : Type} (d : α) :
    ∀ (ws : List (Nat × α)) (l : List α),
      (applyWrites d l ws).length = max l.length (streamBound ws) := by
  intro ws
  induction ws with
  | nil => intro l; simp [applyWrites, streamBound]
  | cons w ws ih =>
    intro l
    show (applyWrites d (growSet d l w) ws).length = _
    rw [ih, length_growSet, streamBound]
    omega

theorem getElem?_applyWrites {α : Type} (d : α) :
    ∀ (ws : List (Nat × α)) (l : List α) (r : Nat),
      (applyWrites d l ws)[r]? =
        match lastWrite ws r with
        | some a => some a
        | none =>
          if r < l.length then l[r]?
          else if r < streamBound ws then some d else none := by
  intro ws
  induction ws with
  | nil =>
    intro l r
    show l[r]? = _
    simp only [lastWrite, streamBound]
    by_cases h : r < l.length
    · rw [if_pos h]
    · rw [if_neg h, if_neg (by omega)]
      exact List.getElem?_eq_none (by omega)
  | cons w ws ih =>
    intro l r
    show (applyWrites d (growSet d l w) ws)[r]? = _
    rw [ih]
    simp only [lastWrite, streamBound]
    rcases hlw : lastWrite ws r with _ | a
    · simp only
      rw [length_growSet, getElem?_growSet]
      by_cases h1 : w.1 = r
      · rw [if_pos h1, if_pos (by omega : r < max l.length (w.1 + 1)), if_pos h1]
      · rw [if_neg h1, if_neg h1]
        simp only
        by_cases h2 : r < l.length
        · rw [if_pos (by omega : r < max l.length (w.1 + 1)), if_pos h2, if_pos h2]
        · by_cases h3 : r < w.1 + 1
          · rw [if_pos (by omega : r < max l.length (w.1 + 1)), if_neg h2, if_pos h3,
              if_neg h2, if_pos (by omega : r < max (w.1 + 1) (streamBound ws))]
          · rw [if_neg (by omega : ¬ r < max l.length (w.1 + 1)), if_neg h2]
            by_cases h4 : r < streamBound ws
            · rw [if_pos h4, if_pos (by omega : r < max (w.1 + 1) (streamBound ws))]
            · rw [if_neg h4, if_neg (by omega : ¬ r < max (w.1 + 1) (streamBound ws))]
    · simp only

theorem length_applySets {α : Type} :
    ∀ (ws : List (Nat × α)) (l : List α), (applySets l ws).length = l.length := by
  intro ws
  induction ws with
  | nil => intro l; rfl
  | cons w ws ih =>
    intro l
    show (applySets (l.set w.1 w.2) ws).length = _
    rw [ih, List.length_set]

theorem getElem?_applySets {α : Type} :
    ∀ (ws : List (Nat × α)) (l : List α) (r : Nat), r < l.length →
      (applySets l ws)[r]? =
        match lastWrite ws r with
        | some a => some a
        | none => l[r]? := by
  intro ws
  induction ws with
  | nil => intro l r _; rfl
  | cons w ws ih =>
    intro l r hr
    show (applySets (l.set w.1 w.2) ws)[r]? = _
    rw [ih _ r (by rw [List.length_set]; omega)]
    simp only [lastWrite]
    rcases hlw : lastWrite ws r with _ | a
    · simp only
      by_cases h1 : w.1 = r
      · rw [if_pos h1, h1, List.getElem?_set_eq_of_lt _ hr]
      · rw [if_neg h1, List.getElem?_set_ne h1]
    · simp only

theorem lastWrite_map {α β : Type} (f : α → β) :
    ∀ (ws : List (Nat × α)) (r : Nat),
      lastWrite (ws.map fun w => (w.1, f w.2)) r = (lastWrite ws r).map f := by
  intro ws
  induction ws with
  | nil => intro r; rfl
  | cons w ws ih =>
    intro r
    simp only [List.map_cons, lastWrite, ih]
    rcases lastWrite ws r with _ | a
    · by_cases h : w.1 = r <;> simp [h]
    · simp

theorem streamBound_map {α β : Type} (f : α → β) :
    ∀ (ws : List (Nat × α)),
      streamBound (ws.map fun w => (w.1, f w.2)) = streamBound ws := by
  intro ws
  induction ws with
  | nil => rfl
  | cons w ws ih => simp only [List.map_cons, streamBound, ih]

theorem applyWrites_append {α : Type} (d : α) (l : List α)
    (ws1 ws2 : List (Nat × α)) :
    applyWrites d l (ws1 ++ ws2) = applyWrites d (applyWrites d l ws1) ws2 := by
  unfold applyWrites
  rw [List.foldl_append]

theorem applySets_append {α : Type} (l : List α) (ws1 ws2 : List (Nat × α)) :
    applySets l (ws1 ++ ws2) = applySets (applySets l ws1) ws2 := by
  unfold applySets
  rw [List.foldl_append]

/-- The value an op denotes, given the values of the ops before it: a data
op denotes its buffer, a computation op its computation applied to the
selected outputs of the referenced producers (shared reference semantics
of both chained modes). -/
def opVal (dataVal : Int → Val) (compFn : Int → List Val → Val)
    (vals : List Val) : ExecuteChainedOp → Val
  | ⟨ChainedSource.data _ h, _, _⟩ => dataVal h
  | ⟨ChainedSource.computation _ h, inputs, _⟩ =>
    compFn h (inputs.map fun inp =>
      select (vals.getD inp.opIndex (Val.tuple [])) (encodeIdx inp.outputIndex))

/-- Op values accumulated in op order. -/
def chainedValsAux (dataVal : Int → Val) (compFn : Int → List Val → Val) :
    List ExecuteChainedOp → List Val → List Val
  | [], vals => vals
  | op :: rest, vals =>
    chainedValsAux dataVal compFn rest (vals ++ [opVal dataVal compFn vals op])

/-- The value of every op of a chained sequence, in op order. -/
def chainedVals (dataVal : Int → Val) (compFn : Int → List Val → Val)
    (ops : List ExecuteChainedOp) : List Val :=
  chainedValsAux dataVal compFn ops []

/-- Whether an output-index selection against a producer is canonical:
references to data ops and to computation ops with non-tuple result shape
leave the index unset; references to computation ops with tuple result
shape name an in-range element. -/
def canonSel : ChainedSource → Option Nat → Bool
  | ChainedSource.data _ _, none => true
  | ChainedSource.data _ _, some _ => false
  | ChainedSource.computation (XlaShape.tuple es) _, some k => decide (k < es.length)
  | ChainedSource.computation (XlaShape.tuple _) _, none => false
  | ChainedSource.computation (XlaShape.array _ _) _, none => true
  | ChainedSource.computation (XlaShape.array _ _) _, some _ => false

/-- Canonical-form check of a chained sequence starting at op `i`: every
computation op's input references a strictly earlier op with a canonical
selection, and every declared output selects canonically from its own op. -/
def canonAux (ops : List ExecuteChainedOp) : List ExecuteChainedOp → Nat → Bool
  | [], _ => true
  | op :: rest, i =>
    ((match op.source with
      | ChainedSource.computation _ _ =>
        op.inputs.all fun inp => decide (inp.opIndex < i) &&
          canonSel (ops.getD inp.opIndex dummyChainedOp).source inp.outputIndex
      | _ => true) &&
      op.outputs.all fun out => canonSel op.source out.outputIndex) &&
    canonAux ops rest (i + 1)

/-- A chained sequence in canonical form: valid references throughout and
no unset tuple selections (the regime where the two execution modes use
the same encoding of intermediate outputs). -/
def canonicalChained (ops : List ExecuteChainedOp) : Bool := canonAux ops ops 0

/-- The per-element outputs an op contributes in split mode: a data op's
single buffer, a computation op's exploded execution result. -/
def entriesFor : ChainedSource → Val → List (XlaShape × Val)
  | ChainedSource.data s _, v => [(s, v)]
  | ChainedSource.computation s _, v => explode s v

/-- Number of input references to producer `j` across a list of ops. -/
def refCount : List ExecuteChainedOp → Nat → Nat
  | [], _ => 0
  | op :: rest, j => op.inputs.countP (fun inp => inp.opIndex == j) + refCount rest j

/-- The plan op `ExecuteChainedXrt` emits for one (valid) chained op. -/
def encodeOp : ExecuteChainedOp → XrtPlanOp
  | ⟨ChainedSource.data _ h, _, outs⟩ => XrtPlanOp.dataHandle h (encodeOutputs outs)
  | ⟨ChainedSource.computation _ h, ins, outs⟩ =>
    XrtPlanOp.computationHandle h
      (ins.map fun inp => ⟨inp.opIndex, encodeIdx inp.outputIndex⟩)
      (encodeOutputs outs)

/-- The common write stream both modes apply to the result slots: for each
op in order and each of its declared outputs, the target slot, the slot's
shape, and the selected value. -/
def opsWriteStreamAux (vals : List Val) :
    List ExecuteChainedOp → Nat → List (Nat × XlaShape × Val)
  | [], _ => []
  | op :: rest, i =>
    (op.outputs.map fun out =>
      (out.resultIndex, shapeSel (opShape op.source) out.outputIndex,
        select (vals.getD i (Val.tuple [])) (encodeIdx out.outputIndex)))
    ++ opsWriteStreamAux vals rest (i + 1)

theorem chainedValsAux_prefix (dataVal : Int → Val) (compFn : Int → List Val → Val) :
    ∀ (rest : List ExecuteChainedOp) (vals : List Val),
      ∃ ext, chainedValsAux dataVal compFn rest vals = vals ++ ext := by
  intro rest
  induction rest with
  | nil => intro vals; exact ⟨[], by simp [chainedValsAux]⟩
  | cons op rest ih =>
    intro vals
    obtain ⟨ext, hext⟩ := ih (vals ++ [opVal dataVal compFn vals op])
    exact ⟨[opVal dataVal compFn vals op] ++ ext, by
      show chainedValsAux dataVal compFn rest _ = _
      rw [hext, List.append_assoc]⟩

theorem chainedValsAux_length (dataVal : Int → Val) (compFn : Int → List Val → Val) :
    ∀ (rest : List ExecuteChainedOp) (vals : List Val),
      (chainedValsAux dataVal compFn rest vals).length = vals.length + rest.length := by
  intro rest
  induction rest with
  | nil => intro vals; simp [chainedValsAux]
  | cons op rest ih =>
    intro vals
    show (chainedValsAux dataVal compFn rest _).length = _
    rw [ih]
    simp
    omega

theorem chainedVals_length (dataVal : Int → Val) (compFn : Int → List Val → Val)
    (ops : List ExecuteChainedOp) :
    (chainedVals dataVal compFn ops).length = ops.length := by
  unfold chainedVals
  rw [chainedValsAux_length]
  simp

theorem chainedValsAux_getD (dataVal : Int → Val) (compFn : Int → List Val → Val) :
    ∀ (rest : List ExecuteChainedOp) (vals : List Val) (k : Nat), k < rest.length →
      (chainedValsAux dataVal compFn rest vals).getD (vals.length + k) (Val.tuple []) =
        opVal dataVal compFn
          ((chainedValsAux dataVal compFn rest vals).take (vals.length + k))
          (rest.getD k dummyChainedOp) := by
  intro rest
  induction rest with
  | nil => intro vals k hk; simp at hk
  | cons op rest ih =>
    intro vals k hk
    simp only [chainedValsAux]
    cases k with
    | zero =>
      obtain ⟨ext, hext⟩ :=
        chainedValsAux_prefix dataVal compFn rest (vals ++ [opVal dataVal compFn vals op])
      rw [hext, List.append_assoc]
      have h1 : (vals ++ ([opVal dataVal compFn vals op] ++ ext)).getD (vals.length + 0)
          (Val.tuple []) = opVal dataVal compFn vals op := by
        rw [List.getD_eq_getElem?_getD, List.getElem?_append, if_neg (by omega)]
        simp
      rw [h1]
      have h2 : (vals ++ ([opVal dataVal compFn vals op] ++ ext)).take (vals.length + 0)
          = vals := by
        simp
      rw [h2]
      rfl
    | succ k =>
      have hlen : vals.length + (k + 1) = (vals ++ [opVal dataVal compFn vals op]).length + k := by
        simp
        omega
      rw [hlen]
      rw [ih (vals ++ [opVal dataVal compFn vals op]) k (by simpa using hk)]
      rfl

theorem chainedVals_getD (dataVal : Int → Val) (compFn : Int → List Val → Val)
    (ops : List ExecuteChainedOp) (i : Nat) (hi : i < ops.length) :
    (chainedVals dataVal compFn ops).getD i (Val.tuple []) =
      opVal dataVal compFn ((chainedVals dataVal compFn ops).take i)
        (ops.getD i dummyChainedOp) := by
  have h := chainedValsAux_getD dataVal compFn ops [] i hi
  simpa [chainedVals] using h

theorem getD_take_lt {α : Type} (l : List α) (i j : Nat) (d : α) (h : j < i) :
    (l.take i).getD j d = l.getD j d := by
  rw [List.getD_eq_getElem?_getD, List.getD_eq_getElem?_getD, List.getElem?_take,
    if_pos h]

theorem opVal_take (dataVal : Int → Val) (compFn : Int → List Val → Val)
    (vals : List Val) (i : Nat) (op : ExecuteChainedOp)
    (h : ∀ inp ∈ op.inputs, inp.opIndex < i) :
    opVal dataVal compFn (vals.take i) op = opVal dataVal compFn vals op := by
  obtain ⟨src, inputs, outputs⟩ := op
  cases src with
  | data s hd => rfl
  | computation s hc =>
    simp only [opVal]
    congr 1
    refine List.map_congr_left ?_
    intro inp hinp
    rw [getD_take_lt _ _ _ _ (h inp hinp)]

theorem length_entriesFor_pos (src : ChainedSource) (v : Val) :
    0 < (entriesFor src v).length ∨
      ∃ es h, src = ChainedSource.computation (XlaShape.tuple es) h := by
  cases src with
  | data s hd => left; simp [entriesFor]
  | computation s hc =>
    cases s with
    | array eb dims => left; simp [entriesFor, explode]
    | tuple es => right; exact ⟨es, hc, rfl⟩

theorem length_explode_tuple (es : List XlaShape) (v : Val) :
    (explode (XlaShape.tuple es) v).length = es.length := by
  simp [explode]

theorem canonSel_entry (src : ChainedSource) (oi : Option Nat) (v : Val)
    (h : canonSel src oi = true) :
    oi.getD 0 < (entriesFor src v).length ∧
    (entriesFor src v).getD (oi.getD 0) (XlaShape.tuple [], Val.tuple [])
      = (shapeSel (opShape src) oi, select v (encodeIdx oi)) := by
  cases src with
  | data s hd =>
    cases oi with
    | none => exact ⟨by simp [entriesFor], rfl⟩
    | some k => exact absurd h (by simp [canonSel])
  | computation s hc =>
    cases s with
    | array eb dims =>
      cases oi with
      | none => exact ⟨by simp [entriesFor, explode], rfl⟩
      | some k => exact absurd h (by simp [canonSel])
    | tuple es =>
      cases oi with
      | none => exact absurd h (by simp [canonSel])
      | some k =>
        have hk : k < es.length := by simpa [canonSel] using h
        constructor
        · simpa [entriesFor, length_explode_tuple] using hk
        · show (explode (XlaShape.tuple es) v).getD k _ = _
          rw [List.getD_eq_getElem?_getD]
          unfold explode
          rw [List.getElem?_map, List.getElem?_range hk]
          rfl

/-- The stream of result-shape writes `ExecuteChainedXrt`'s plan loop
performs, in op/output order. -/
def opsShapeStream : List ExecuteChainedOp → List (Nat × XlaShape)
  | [] => []
  | op :: rest =>
    (op.outputs.map fun out =>
      (out.resultIndex, shapeSel (opShape op.source) out.outputIndex))
    ++ opsShapeStream rest

/-- The stream of slot-value writes the spec-modelled server performs. -/
def opsValStream (vals : List Val) : List ExecuteChainedOp → Nat → List (Nat × Option Val)
  | [], _ => []
  | op :: rest, i =>
    (op.outputs.map fun out =>
      (out.resultIndex, some (select (vals.getD i (Val.tuple [])) (encodeIdx out.outputIndex))))
    ++ opsValStream vals rest (i + 1)

/-- The stream of result-slot writes split mode performs. -/
def opsSlotStream (vals : List Val) :
    List ExecuteChainedOp → Nat → List (Nat × Option (XlaShape × Val))
  | [], _ => []
  | op :: rest, i =>
    (op.outputs.map fun out =>
      (out.resultIndex, some (shapeSel (opShape op.source) out.outputIndex,
        select (vals.getD i (Val.tuple [])) (encodeIdx out.outputIndex))))
    ++ opsSlotStream vals rest (i + 1)

theorem opsShapeStream_eq_map (vals : List Val) :
    ∀ (rest : List ExecuteChainedOp) (i : Nat),
      opsShapeStream rest = (opsWriteStreamAux vals rest i).map fun w => (w.1, w.2.1) := by
  intro rest
  induction rest with
  | nil => intro i; rfl
  | cons op rest ih =>
    intro i
    simp only [opsShapeStream, opsWriteStreamAux, List.map_append, List.map_map]
    rw [ih (i + 1)]
    rfl

theorem opsValStream_eq_map (vals : List Val) :
    ∀ (rest : List ExecuteChainedOp) (i : Nat),
      opsValStream vals rest i
        = (opsWriteStreamAux vals rest i).map fun w => (w.1, some w.2.2) := by
  intro rest
  induction rest with
  | nil => intro i; rfl
  | cons op rest ih =>
    intro i
    simp only [opsValStream, opsWriteStreamAux, List.map_append, List.map_map]
    rw [ih (i + 1)]
    rfl

theorem opsSlotStream_eq_map (vals : List Val) :
    ∀ (rest : List ExecuteChainedOp) (i : Nat),
      opsSlotStream vals rest i
        = (opsWriteStreamAux vals rest i).map fun w => (w.1, some (w.2.1, w.2.2)) := by
  intro rest
  induction rest with
  | nil => intro i; rfl
  | cons op rest ih =>
    intro i
    simp only [opsSlotStream, opsWriteStreamAux, List.map_append, List.map_map]
    rw [ih (i + 1)]
    rfl

theorem buildPlanInputs_eq (i : Nat) :
    ∀ (inputs : List ChainedInput), (∀ inp ∈ inputs, inp.opIndex < i) →
      buildPlanInputs i inputs =
        Except.ok (inputs.map fun inp => ⟨inp.opIndex, encodeIdx inp.outputIndex⟩) := by
  intro inputs
  induction inputs with
  | nil => intro _; rfl
  | cons inp rest ih =>
    intro h
    unfold buildPlanInputs
    rw [if_pos (h inp (by simp))]
    rw [ih fun x hx => h x (by simp [hx])]
    rfl

theorem applyPlanOutput_eq (i : Nat) (src : ChainedSource) (shapes : List XlaShape)
    (out : ChainedOutput) (h : canonSel src out.outputIndex = true) :
    applyPlanOutput i (opShape src) shapes out =
      Except.ok (growSet (XlaShape.tuple []) shapes
        (out.resultIndex, shapeSel (opShape src) out.outputIndex)) := by
  obtain ⟨r, oi⟩ := out
  cases src with
  | data s hd =>
    cases oi with
    | none => rfl
    | some k => exact absurd h (by simp [canonSel])
  | computation s hc =>
    cases s with
    | array eb dims =>
      cases oi with
      | none => rfl
      | some k => exact absurd h (by simp [canonSel])
    | tuple es =>
      cases oi with
      | none => exact absurd h (by simp [canonSel])
      | some k =>
        have hk : k < es.length := by simpa [canonSel] using h
        unfold applyPlanOutput
        simp only [opShape]
        rw [if_pos hk]
        rfl

theorem applyPlanOutputs_eq (i : Nat) (src : ChainedSource) :
    ∀ (outs : List ChainedOutput) (shapes : List XlaShape),
      (∀ out ∈ outs, canonSel src out.outputIndex = true) →
      applyPlanOutputs i (opShape src) outs shapes =
        Except.ok (applyWrites (XlaShape.tuple []) shapes
          (outs.map fun out => (out.resultIndex, shapeSel (opShape src) out.outputIndex))) := by
  intro outs
  induction outs with
  | nil => intro shapes _; rfl
  | cons out rest ih =>
    intro shapes h
    unfold applyPlanOutputs
    rw [applyPlanOutput_eq i src shapes out (h out (by simp))]
    simp only
    rw [ih _ fun x hx => h x (by simp [hx])]
    rfl

theorem buildPlanAux_eq (ops : List ExecuteChainedOp) :
    ∀ (rest : List ExecuteChainedOp) (i : Nat) (planOps : List XrtPlanOp)
      (shapes : List XlaShape),
      canonAux ops rest i = true →
      buildPlanAux rest i planOps shapes =
        Except.ok (planOps ++ rest.map encodeOp,
          applyWrites (XlaShape.tuple []) shapes (opsShapeStream rest)) := by
  intro rest
  induction rest with
  | nil =>
    intro i planOps shapes _
    simp [buildPlanAux, opsShapeStream, applyWrites]
  | cons op rest ih =>
    intro i planOps shapes hc
    simp only [canonAux, Bool.and_eq_true] at hc
    obtain ⟨⟨hA, hB⟩, hC⟩ := hc
    obtain ⟨src, inputs, outputs⟩ := op
    have houts : ∀ out ∈ outputs, canonSel src out.outputIndex = true := by
      intro out hout
      exact List.all_eq_true.mp hB out hout
    cases src with
    | data s hd =>
      rw [buildPlanAux_cons_data]
      have happ := applyPlanOutputs_eq i (ChainedSource.data s hd) outputs shapes houts
      simp only [opShape] at happ
      rw [happ]
      simp only
      rw [ih (i + 1) _ _ hC]
      simp only [List.map_cons, encodeOp, opsShapeStream, opShape, applyWrites_append]
      simp [List.append_assoc]
    | computation s hcmp =>
      rw [buildPlanAux_cons_comp]
      have hins : ∀ inp ∈ inputs, inp.opIndex < i := by
        intro inp hin
        have h2 := List.all_eq_true.mp hA inp hin
        rw [Bool.and_eq_true] at h2
        exact of_decide_eq_true h2.1
      rw [buildPlanInputs_eq i inputs hins]
      simp only
      have happ := applyPlanOutputs_eq i (ChainedSource.computation s hcmp) outputs shapes houts
      simp only [opShape] at happ
      rw [happ]
      simp only
      rw [ih (i + 1) _ _ hC]
      simp only [List.map_cons, encodeOp, opsShapeStream, opShape, applyWrites_append]
      simp [List.append_assoc]

theorem planOpVal_encode (dataVal : Int → Val) (compFn : Int → List Val → Val)
    (vals : List Val) (op : ExecuteChainedOp) :
    planOpVal dataVal compFn vals (encodeOp op) = opVal dataVal compFn vals op := by
  obtain ⟨src, ins, outs⟩ := op
  cases src with
  | data s hd => rfl
  | computation s hc =>
    simp only [encodeOp, planOpVal, opVal, List.map_map]
    rfl

theorem serverEvalVals_encode (dataVal : Int → Val) (compFn : Int → List Val → Val) :
    ∀ (rest : List ExecuteChainedOp) (vals : List Val),
      List.foldl (fun vals p => vals ++ [planOpVal dataVal compFn vals p]) vals
          (rest.map encodeOp)
        = chainedValsAux dataVal compFn rest vals := by
  intro rest
  induction rest with
  | nil => intro vals; rfl
  | cons op rest ih =>
    intro vals
    simp only [List.map_cons, List.foldl_cons, planOpVal_encode]
    rw [ih]
    rfl

theorem serverEvalVals_eq (dataVal : Int → Val) (compFn : Int → List Val → Val)
    (ops : List ExecuteChainedOp) :
    serverEvalVals dataVal compFn (ops.map encodeOp) = chainedVals dataVal compFn ops :=
  serverEvalVals_encode dataVal compFn ops []

theorem planOutputs_encode (op : ExecuteChainedOp) :
    planOutputs (encodeOp op) = encodeOutputs op.outputs := by
  obtain ⟨src, ins, outs⟩ := op
  cases src <;> rfl

theorem foldSet_encodeOutputs (v : Val) (outs : List ChainedOutput)
    (slots : List (Option Val)) :
    (encodeOutputs outs).foldl
        (fun sl out => sl.set out.result_index (some (select v out.output_index))) slots
      = applySets slots
          (outs.map fun out => (out.resultIndex, some (select v (encodeIdx out.outputIndex)))) := by
  unfold encodeOutputs applySets
  rw [List.foldl_map, List.foldl_map]

theorem serverAssign_encode (vals : List Val) :
    ∀ (rest : List ExecuteChainedOp) (i : Nat) (slots : List (Option Val)),
      serverAssign vals (rest.map encodeOp) i slots
        = applySets slots (opsValStream vals rest i) := by
  intro rest
  induction rest with
  | nil => intro i slots; rfl
  | cons op rest ih =>
    intro i slots
    simp only [List.map_cons, serverAssign]
    rw [planOutputs_encode, foldSet_encodeOutputs]
    rw [ih (i + 1)]
    simp only [opsValStream]
    rw [applySets_append]

theorem incUses_length :
    ∀ (inputs : List ChainedInput) (uses : List Nat),
      (inputs.foldl (fun u inp => u.set inp.opIndex (u.getD inp.opIndex 0 + 1)) uses).length
        = uses.length := by
  intro inputs
  induction inputs with
  | nil => intro uses; rfl
  | cons inp rest ih =>
    intro uses
    rw [List.foldl_cons, ih, List.length_set]

theorem incUses_getD :
    ∀ (inputs : List ChainedInput) (uses : List Nat) (j : Nat), j < uses.length →
      (inputs.foldl (fun u inp => u.set inp.opIndex (u.getD inp.opIndex 0 + 1)) uses).getD j 0
        = uses.getD j 0 + inputs.countP (fun inp => inp.opIndex == j) := by
  intro inputs
  induction inputs with
  | nil => intro uses j hj; simp
  | cons inp rest ih =>
    intro uses j hj
    rw [List.foldl_cons]
    rw [ih _ j (by rw [List.length_set]; omega)]
    rw [List.countP_cons]
    by_cases hjeq : inp.opIndex = j
    · have hbeq : (inp.opIndex == j) = true := by simp [hjeq]
      rw [hbeq]
      have hset : (uses.set inp.opIndex (uses.getD inp.opIndex 0 + 1)).getD j 0
          = uses.getD j 0 + 1 := by
        rw [hjeq, List.getD_eq_getElem?_getD, List.getElem?_set_eq_of_lt _ hj]
        rfl
      rw [hset]
      simp
      omega
    · have hbeq : (inp.opIndex == j) = false := by simp [hjeq]
      rw [hbeq]
      have hset : (uses.set inp.opIndex (uses.getD inp.opIndex 0 + 1)).getD j 0
          = uses.getD j 0 := by
        rw [List.getD_eq_getElem?_getD, List.getElem?_set_ne hjeq, List.getD_eq_getElem?_getD]
      rw [hset]
      simp

theorem buildUses_length :
    ∀ (opsRest : List ExecuteChainedOp) (uses : List Nat),
      (buildUses opsRest uses).length = uses.length := by
  intro opsRest
  induction opsRest with
  | nil => intro uses; rfl
  | cons op rest ih =>
    intro uses
    show (buildUses rest _).length = _
    rw [ih, incUses_length]

theorem buildUses_getD :
    ∀ (opsRest : List ExecuteChainedOp) (uses : List Nat) (j : Nat), j < uses.length →
      (buildUses opsRest uses).getD j 0 = uses.getD j 0 + refCount opsRest j := by
  intro opsRest
  induction opsRest with
  | nil => intro uses j hj; simp [buildUses, refCount]
  | cons op rest ih =>
    intro uses j hj
    show (buildUses rest _).getD j 0 = _
    rw [ih _ j (by rw [incUses_length]; omega)]
    rw [incUses_getD op.inputs uses j hj]
    show _ = uses.getD j 0 + (op.inputs.countP (fun inp => inp.opIndex == j) + refCount rest j)
    omega

theorem splitDecrement_cons (inp : ChainedInput) (rest : List ChainedInput)
    (oo : List (List (XlaShape × Val))) (uses : List Nat) :
    splitDecrement (inp :: rest) oo uses =
      splitDecrement rest
        (if (uses.set inp.opIndex (uses.getD inp.opIndex 0 - 1)).getD inp.opIndex 0 = 0
         then oo.set inp.opIndex [] else oo)
        (uses.set inp.opIndex (uses.getD inp.opIndex 0 - 1)) := by
  unfold splitDecrement
  rw [List.foldl_cons]
  simp only
  by_cases h : (uses.set inp.opIndex (uses.getD inp.opIndex 0 - 1)).getD inp.opIndex 0 = 0
  · rw [if_pos h, if_pos h]
  · rw [if_neg h, if_neg h]

theorem splitDecrement_length :
    ∀ (inputs : List ChainedInput) (oo : List (List (XlaShape × Val))) (uses : List Nat),
      (splitDecrement inputs oo uses).1.length = oo.length ∧
      (splitDecrement inputs oo uses).2.length = uses.length := by
  intro inputs
  induction inputs with
  | nil => intro oo uses; exact ⟨rfl, rfl⟩
  | cons inp rest ih =>
    intro oo uses
    rw [splitDecrement_cons]
    obtain ⟨h1, h2⟩ := ih
      (if (uses.set inp.opIndex (uses.getD inp.opIndex 0 - 1)).getD inp.opIndex 0 = 0
       then oo.set inp.opIndex [] else oo)
      (uses.set inp.opIndex (uses.getD inp.opIndex 0 - 1))
    constructor
    · rw [h1]
      split <;> simp
    · rw [h2, List.length_set]

theorem splitDecrement_getD :
    ∀ (inputs : List ChainedInput) (oo : List (List (XlaShape × Val))) (uses : List Nat)
      (j : Nat), j < uses.length →
      (splitDecrement inputs oo uses).2.getD j 0
        = uses.getD j 0 - inputs.countP (fun inp => inp.opIndex == j) ∧
      (inputs.countP (fun inp => inp.opIndex == j) < uses.getD j 0 →
        (splitDecrement inputs oo uses).1.getD j [] = oo.getD j []) := by
  intro inputs
  induction inputs with
  | nil => intro oo uses j hj; exact ⟨by simp [splitDecrement], fun _ => rfl⟩
  | cons inp rest ih =>
    intro oo uses j hj
    rw [splitDecrement_cons]
    by_cases hjeq : inp.opIndex = j
    · subst hjeq
      have hcnt : List.countP (fun i2 => i2.opIndex == inp.opIndex) (inp :: rest)
          = List.countP (fun i2 => i2.opIndex == inp.opIndex) rest + 1 := by
        simp [List.countP_cons]
      rw [hcnt]
      have hu2 : (uses.set inp.opIndex (uses.getD inp.opIndex 0 - 1)).getD inp.opIndex 0
          = uses.getD inp.opIndex 0 - 1 := by
        rw [List.getD_eq_getElem?_getD, List.getElem?_set_eq_of_lt _ hj]
        rfl
      obtain ⟨hval, hint⟩ := ih
        (if (uses.set inp.opIndex (uses.getD inp.opIndex 0 - 1)).getD inp.opIndex 0 = 0
         then oo.set inp.opIndex [] else oo)
        (uses.set inp.opIndex (uses.getD inp.opIndex 0 - 1)) inp.opIndex
        (by rw [List.length_set]; omega)
      constructor
      · rw [hval, hu2]
        omega
      · intro hlt
        have hne : ¬ (uses.set inp.opIndex (uses.getD inp.opIndex 0 - 1)).getD
            inp.opIndex 0 = 0 := by
          rw [hu2]
          omega
        rw [if_neg hne] at hint ⊢
        rw [hint (by rw [hu2]; omega)]
    · have hbeq : (inp.opIndex == j) = false := by simp [hjeq]
      have hcnt : List.countP (fun i2 => i2.opIndex == j) (inp :: rest)
          = List.countP (fun i2 => i2.opIndex == j) rest := by
        rw [List.countP_cons, hbeq]
        simp
      rw [hcnt]
      have hu2 : (uses.set inp.opIndex (uses.getD inp.opIndex 0 - 1)).getD j 0
          = uses.getD j 0 := by
        rw [List.getD_eq_getElem?_getD, List.getElem?_set_ne hjeq, List.getD_eq_getElem?_getD]
      obtain ⟨hval, hint⟩ := ih
        (if (uses.set inp.opIndex (uses.getD inp.opIndex 0 - 1)).getD inp.opIndex 0 = 0
         then oo.set inp.opIndex [] else oo)
        (uses.set inp.opIndex (uses.getD inp.opIndex 0 - 1)) j
        (by rw [List.length_set]; omega)
      constructor
      · rw [hval, hu2]
      · intro hlt
        have hoo : (if (uses.set inp.opIndex (uses.getD inp.opIndex 0 - 1)).getD
            inp.opIndex 0 = 0 then oo.set inp.opIndex [] else oo).getD j []
            = oo.getD j [] := by
          split
          · rw [List.getD_eq_getElem?_getD, List.getElem?_set_ne hjeq, List.getD_eq_getElem?_getD]
          · rfl
        rw [hint (by rw [hu2]; exact hlt), hoo]

theorem splitApplyOutputs_eq (i : Nat) (src : ChainedSource) (v : Val) :
    ∀ (outs : List ChainedOutput) (results : List (Option (XlaShape × Val))),
      (∀ out ∈ outs, canonSel src out.outputIndex = true) →
      splitApplyOutputs i (entriesFor src v) outs results =
        Except.ok (applyWrites none results
          (outs.map fun out => (out.resultIndex,
            some (shapeSel (opShape src) out.outputIndex,
              select v (encodeIdx out.outputIndex))))) := by
  intro outs
  induction outs with
  | nil => intro results _; rfl
  | cons out rest ih =>
    intro results h
    obtain ⟨hbound, hentry⟩ := canonSel_entry src out.outputIndex v (h out (by simp))
    unfold splitApplyOutputs
    rw [if_pos hbound, hentry]
    rw [ih _ fun x hx => h x (by simp [hx])]
    rfl

theorem splitArgs_eq (ops : List ExecuteChainedOp) (vals : List Val)
    (oo : List (List (XlaShape × Val))) (i : Nat) :
    ∀ (inputs : List ChainedInput),
      (∀ inp ∈ inputs, inp.opIndex < i ∧
        canonSel (ops.getD inp.opIndex dummyChainedOp).source inp.outputIndex = true ∧
        oo.getD inp.opIndex [] =
          entriesFor (ops.getD inp.opIndex dummyChainedOp).source
            (vals.getD inp.opIndex (Val.tuple []))) →
      splitArgs oo i inputs =
        Except.ok (inputs.map fun inp =>
          (shapeSel (opShape (ops.getD inp.opIndex dummyChainedOp).source) inp.outputIndex,
            select (vals.getD inp.opIndex (Val.tuple [])) (encodeIdx inp.outputIndex))) := by
  intro inputs
  induction inputs with
  | nil => intro _; rfl
  | cons inp rest ih =>
    intro h
    obtain ⟨hlt, hcanon, hoo⟩ := h inp (by simp)
    obtain ⟨hbound, hentry⟩ :=
      canonSel_entry (ops.getD inp.opIndex dummyChainedOp).source inp.outputIndex
        (vals.getD inp.opIndex (Val.tuple [])) hcanon
    unfold splitArgs
    rw [if_pos hlt, hoo, if_pos hbound, hentry]
    rw [ih fun x hx => h x (by simp [hx])]
    rfl

theorem compCount_cons_data (s : XlaShape) (hd : Int) (inputs : List ChainedInput)
    (outputs : List ChainedOutput) (rest : List ExecuteChainedOp) :
    compCount (⟨ChainedSource.data s hd, inputs, outputs⟩ :: rest) = compCount rest := by
  simp [compCount, List.countP_cons]

theorem compCount_cons_comp (s : XlaShape) (hc : Int) (inputs : List ChainedInput)
    (outputs : List ChainedOutput) (rest : List ExecuteChainedOp) :
    compCount (⟨ChainedSource.computation s hc, inputs, outputs⟩ :: rest)
      = compCount rest + 1 := by
  simp [compCount, List.countP_cons]

theorem splitAux_canonical (dataVal : Int → Val) (compFn : Int → List Val → Val)
    (ops : List ExecuteChainedOp) :
    ∀ (rest : List ExecuteChainedOp) (i : Nat) (st : SplitState),
      ops.drop i = rest →
      canonAux ops rest i = true →
      st.opsOutputs.length = ops.length →
      st.uses.length = ops.length →
      (∀ j, j < ops.length → st.uses.getD j 0 = refCount rest j) →
      (∀ j, j < i → 0 < refCount rest j →
        st.opsOutputs.getD j [] =
          entriesFor (ops.getD j dummyChainedOp).source
            ((chainedVals dataVal compFn ops).getD j (Val.tuple []))) →
      ∃ st2, executeChainedSplitAux dataVal compFn rest i st = (none, st2) ∧
        st2.results = applyWrites none st.results
          (opsSlotStream (chainedVals dataVal compFn ops) rest i) ∧
        st2.rpcs = st.rpcs + compCount rest := by
  intro rest
  induction rest with
  | nil =>
    intro i st _ _ _ _ _ _
    exact ⟨st, rfl, rfl, by simp [compCount]⟩
  | cons op rest ih =>
    intro i st hdrop hcanon hlen1 hlen2 huses hIntact
    have hi : i < ops.length := by
      have hlen := congrArg List.length hdrop
      rw [List.length_drop] at hlen
      simp at hlen
      omega
    have hdrop' : ops.drop (i + 1) = rest := by
      have h2 := List.drop_drop 1 i ops
      rw [hdrop] at h2
      rw [← h2]
      rfl
    have hget : ops.getD i dummyChainedOp = op := by
      have h0 := List.getElem?_drop ops i 0
      rw [hdrop] at h0
      have h1 : ops[i]? = some op := by simpa using h0.symm
      rw [List.getD_eq_getElem?_getD, h1]
      rfl
    simp only [canonAux, Bool.and_eq_true] at hcanon
    obtain ⟨⟨hA, hB⟩, hC⟩ := hcanon
    obtain ⟨src, inputs, outputs⟩ := op
    have houts : ∀ out ∈ outputs, canonSel src out.outputIndex = true := by
      intro out hout
      exact List.all_eq_true.mp hB out hout
    have hvi := chainedVals_getD dataVal compFn ops i hi
    rw [hget] at hvi
    cases src with
    | data s hd =>
      have hvd : (chainedVals dataVal compFn ops).getD i (Val.tuple []) = dataVal hd := hvi
      have hE : [(s, dataVal hd)] =
          entriesFor (ChainedSource.data s hd)
            ((chainedVals dataVal compFn ops).getD i (Val.tuple [])) := by
        rw [hvd]
        rfl
      have happly := splitApplyOutputs_eq i (ChainedSource.data s hd)
        ((chainedVals dataVal compFn ops).getD i (Val.tuple [])) outputs st.results houts
      have hstep : executeChainedSplitAux dataVal compFn
          (⟨ChainedSource.data s hd, inputs, outputs⟩ :: rest) i st
          = executeChainedSplitAux dataVal compFn rest (i + 1)
            ⟨(splitDecrement inputs (st.opsOutputs.set i
                (entriesFor (ChainedSource.data s hd)
                  ((chainedVals dataVal compFn ops).getD i (Val.tuple [])))) st.uses).1,
             (splitDecrement inputs (st.opsOutputs.set i
                (entriesFor (ChainedSource.data s hd)
                  ((chainedVals dataVal compFn ops).getD i (Val.tuple [])))) st.uses).2,
             applyWrites none st.results
               (outputs.map fun out => (out.resultIndex,
                 some (shapeSel (opShape (ChainedSource.data s hd)) out.outputIndex,
                   select ((chainedVals dataVal compFn ops).getD i (Val.tuple []))
                     (encodeIdx out.outputIndex)))),
             st.rpcs⟩ := by
        rw [splitAux_cons_data, hE, happly]
      rw [hstep]
      have hdec := splitDecrement_getD inputs
        (st.opsOutputs.set i (entriesFor (ChainedSource.data s hd)
          ((chainedVals dataVal compFn ops).getD i (Val.tuple [])))) st.uses
      have hdlen := splitDecrement_length inputs
        (st.opsOutputs.set i (entriesFor (ChainedSource.data s hd)
          ((chainedVals dataVal compFn ops).getD i (Val.tuple [])))) st.uses
      obtain ⟨st2, hrun, hres, hrpc⟩ := ih (i + 1)
        ⟨(splitDecrement inputs (st.opsOutputs.set i
            (entriesFor (ChainedSource.data s hd)
              ((chainedVals dataVal compFn ops).getD i (Val.tuple [])))) st.uses).1,
         (splitDecrement inputs (st.opsOutputs.set i
            (entriesFor (ChainedSource.data s hd)
              ((chainedVals dataVal compFn ops).getD i (Val.tuple [])))) st.uses).2,
         applyWrites none st.results
           (outputs.map fun out => (out.resultIndex,
             some (shapeSel (opShape (ChainedSource.data s hd)) out.outputIndex,
               select ((chainedVals dataVal compFn ops).getD i (Val.tuple []))
                 (encodeIdx out.outputIndex)))),
         st.rpcs⟩ hdrop' hC
        (by simp only [hdlen.1, List.length_set]; exact hlen1)
        (by simp only [hdlen.2]; exact hlen2)
        (by
          intro j hj
          obtain ⟨hval, _⟩ := hdec j (by omega)
          simp only [hval]
          have hu := huses j hj
          have hrc : refCount (⟨ChainedSource.data s hd, inputs, outputs⟩ :: rest) j
              = inputs.countP (fun inp => inp.opIndex == j) + refCount rest j := rfl
          rw [hu, hrc]
          omega)
        (by
          intro j hj hjrc
          obtain ⟨_, hint⟩ := hdec j (by omega)
          have hu := huses j (by omega)
          have hrc : refCount (⟨ChainedSource.data s hd, inputs, outputs⟩ :: rest) j
              = inputs.countP (fun inp => inp.opIndex == j) + refCount rest j := rfl
          simp only
          rw [hint (by rw [hu, hrc]; omega)]
          by_cases hji : j = i
          · subst hji
            rw [List.getD_eq_getElem?_getD, List.getElem?_set_eq_of_lt _ (by omega)]
            simp only [Option.getD_some]
            rw [hget]
          · rw [List.getD_eq_getElem?_getD, List.getElem?_set_ne (fun h => hji h.symm),
              ← List.getD_eq_getElem?_getD]
            exact hIntact j (by omega) (by
              have hrc2 : refCount (⟨ChainedSource.data s hd, inputs, outputs⟩ :: rest) j
                  = inputs.countP (fun inp => inp.opIndex == j) + refCount rest j := rfl
              omega))
      refine ⟨st2, hrun, ?_, ?_⟩
      · rw [hres]
        simp only [opsSlotStream]
        rw [applyWrites_append]
      · rw [hrpc, compCount_cons_data]
    | computation s hcm =>
      have hins : ∀ inp ∈ inputs, inp.opIndex < i := by
        intro inp hin
        have h2 := List.all_eq_true.mp hA inp hin
        rw [Bool.and_eq_true] at h2
        exact of_decide_eq_true h2.1
      have hcanonIn : ∀ inp ∈ inputs,
          canonSel (ops.getD inp.opIndex dummyChainedOp).source inp.outputIndex = true := by
        intro inp hin
        have h2 := List.all_eq_true.mp hA inp hin
        rw [Bool.and_eq_true] at h2
        exact h2.2
      have hintactIn : ∀ inp ∈ inputs,
          st.opsOutputs.getD inp.opIndex [] =
            entriesFor (ops.getD inp.opIndex dummyChainedOp).source
              ((chainedVals dataVal compFn ops).getD inp.opIndex (Val.tuple [])) := by
        intro inp hin
        refine hIntact inp.opIndex (hins inp hin) ?_
        have hcp : 0 < inputs.countP (fun i2 => i2.opIndex == inp.opIndex) :=
          List.countP_pos_iff.mpr ⟨inp, hin, by simp⟩
        have hrc : refCount (⟨ChainedSource.computation s hcm, inputs, outputs⟩ :: rest)
            inp.opIndex
            = inputs.countP (fun i2 => i2.opIndex == inp.opIndex)
              + refCount rest inp.opIndex := rfl
        omega
      have hargs := splitArgs_eq ops (chainedVals dataVal compFn ops) st.opsOutputs i
        inputs (fun inp hin => ⟨hins inp hin, hcanonIn inp hin, hintactIn inp hin⟩)
      rw [opVal_take dataVal compFn _ i _ hins] at hvi
      have hv : compFn hcm
          (((inputs.map fun inp =>
            (shapeSel (opShape (ops.getD inp.opIndex dummyChainedOp).source) inp.outputIndex,
              select ((chainedVals dataVal compFn ops).getD inp.opIndex (Val.tuple []))
                (encodeIdx inp.outputIndex)))).map Prod.snd)
          = (chainedVals dataVal compFn ops).getD i (Val.tuple []) := by
        rw [List.map_map, hvi]
        rfl
      have happly := splitApplyOutputs_eq i (ChainedSource.computation s hcm)
        ((chainedVals dataVal compFn ops).getD i (Val.tuple [])) outputs st.results houts
      simp only [entriesFor] at happly
      have hstep : executeChainedSplitAux dataVal compFn
          (⟨ChainedSource.computation s hcm, inputs, outputs⟩ :: rest) i st
          = executeChainedSplitAux dataVal compFn rest (i + 1)
            ⟨(splitDecrement inputs (st.opsOutputs.set i
                (explode s ((chainedVals dataVal compFn ops).getD i (Val.tuple [])))) st.uses).1,
             (splitDecrement inputs (st.opsOutputs.set i
                (explode s ((chainedVals dataVal compFn ops).getD i (Val.tuple [])))) st.uses).2,
             applyWrites none st.results
               (outputs.map fun out => (out.resultIndex,
                 some (shapeSel (opShape (ChainedSource.computation s hcm)) out.outputIndex,
                   select ((chainedVals dataVal compFn ops).getD i (Val.tuple []))
                     (encodeIdx out.outputIndex)))),
             st.rpcs + 1⟩ := by
        rw [splitAux_cons_comp, hargs]
        simp only
        rw [hv, happly]
      rw [hstep]
      have hdec := splitDecrement_getD inputs
        (st.opsOutputs.set i
          (explode s ((chainedVals dataVal compFn ops).getD i (Val.tuple [])))) st.uses
      have hdlen := splitDecrement_length inputs
        (st.opsOutputs.set i
          (explode s ((chainedVals dataVal compFn ops).getD i (Val.tuple [])))) st.uses
      obtain ⟨st2, hrun, hres, hrpc⟩ := ih (i + 1)
        ⟨(splitDecrement inputs (st.opsOutputs.set i
            (explode s ((chainedVals dataVal compFn ops).getD i (Val.tuple [])))) st.uses).1,
         (splitDecrement inputs (st.opsOutputs.set i
            (explode s ((chainedVals dataVal compFn ops).getD i (Val.tuple [])))) st.uses).2,
         applyWrites none st.results
           (outputs.map fun out => (out.resultIndex,
             some (shapeSel (opShape (ChainedSource.computation s hcm)) out.outputIndex,
               select ((chainedVals dataVal compFn ops).getD i (Val.tuple []))
                 (encodeIdx out.outputIndex)))),
         st.rpcs + 1⟩ hdrop' hC
        (by simp only [hdlen.1, List.length_set]; exact hlen1)
        (by simp only [hdlen.2]; exact hlen2)
        (by
          intro j hj
          obtain ⟨hval, _⟩ := hdec j (by omega)
          simp only [hval]
          have hu := huses j hj
          have hrc : refCount (⟨ChainedSource.computation s hcm, inputs, outputs⟩ :: rest) j
              = inputs.countP (fun inp => inp.opIndex == j) + refCount rest j := rfl
          rw [hu, hrc]
          omega)
        (by
          intro j hj hjrc
          obtain ⟨_, hint⟩ := hdec j (by omega)
          have hu := huses j (by omega)
          have hrc : refCount (⟨ChainedSource.computation s hcm, inputs, outputs⟩ :: rest) j
              = inputs.countP (fun inp => inp.opIndex == j) + refCount rest j := rfl
          simp only
          rw [hint (by rw [hu, hrc]; omega)]
          by_cases hji : j = i
          · subst hji
            rw [List.getD_eq_getElem?_getD, List.getElem?_set_eq_of_lt _ (by omega)]
            simp only [Option.getD_some]
            rw [hget]
            rfl
          · rw [List.getD_eq_getElem?_getD, List.getElem?_set_ne (fun h => hji h.symm),
              ← List.getD_eq_getElem?_getD]
            exact hIntact j (by omega) (by omega))
      refine ⟨st2, hrun, ?_, ?_⟩
      · rw [hres]
        simp only [opsSlotStream]
        rw [applyWrites_append]
      · rw [hrpc, compCount_cons_comp]
        simp only
        omega

theorem executeChainedSplit_canonical (dataVal : Int → Val)
    (compFn : Int → List Val → Val) (ops : List ExecuteChainedOp)
    (h : canonicalChained ops = true) :
    executeChainedSplit dataVal compFn ops =
      (Except.ok (applyWrites none []
        (opsSlotStream (chainedVals dataVal compFn ops) ops 0)), compCount ops) := by
  obtain ⟨st2, hrun, hres, hrpc⟩ := splitAux_canonical dataVal compFn ops ops 0
    ⟨List.replicate ops.length [], buildUses ops (List.replicate ops.length 0), [], 0⟩
    (List.drop_zero ops) h
    (by simp)
    (by simp [buildUses_length])
    (by
      intro j hj
      show (buildUses ops (List.replicate ops.length 0)).getD j 0 = refCount ops j
      rw [buildUses_getD ops _ j (by simp; omega)]
      rw [List.getD_eq_getElem?_getD, List.getElem?_replicate, if_pos hj]
      simp)
    (by intro j hj hrc; omega)
  unfold executeChainedSplit
  rw [hrun]
  simp only
  rw [hres, hrpc]
  simp only
  rw [Nat.zero_add]

theorem executeChainedXrt_canonical (dataVal : Int → Val)
    (compFn : Int → List Val → Val) (ops : List ExecuteChainedOp)
    (h : canonicalChained ops = true) :
    executeChainedXrt dataVal compFn ops =
      (Except.ok ((List.range
          (applyWrites (XlaShape.tuple []) [] (opsShapeStream ops)).length).map
        fun r =>
          ((applySets
              (List.replicate
                (applyWrites (XlaShape.tuple []) [] (opsShapeStream ops)).length none)
              (opsValStream (chainedVals dataVal compFn ops) ops 0)).getD r none).map
            fun v => ((applyWrites (XlaShape.tuple []) [] (opsShapeStream ops)).getD r
              (XlaShape.tuple []), v)), 1) := by
  unfold executeChainedXrt
  rw [buildPlanAux_eq ops ops 0 [] [] h]
  simp only [List.nil_append]
  rw [serverEvalVals_eq, serverAssign_encode]

theorem master_shape_getElem (M : List (Nat × XlaShape × Val)) (r : Nat)
    (sh : XlaShape) (v : Val) (hw : lastWrite M r = some (sh, v)) :
    (applyWrites (XlaShape.tuple []) [] (M.map fun w => (w.1, w.2.1)))[r]? = some sh := by
  rw [getElem?_applyWrites (XlaShape.tuple []) (M.map fun w => (w.1, w.2.1)) [] r,
    lastWrite_map (fun b : XlaShape × Val => b.1) M r, hw]
  rfl

theorem master_val_getElem (M : List (Nat × XlaShape × Val)) (r : Nat)
    (sh : XlaShape) (v : Val) (hw : lastWrite M r = some (sh, v)) (n : Nat)
    (hr : r < n) :
    (applySets (List.replicate n (none : Option Val))
        (M.map fun w => (w.1, some w.2.2)))[r]? = some (some v) := by
  rw [getElem?_applySets (M.map fun w => (w.1, some w.2.2))
      (List.replicate n (none : Option Val)) r (by rw [List.length_replicate]; omega),
    lastWrite_map (fun b : XlaShape × Val => some b.2) M r, hw]
  rfl

theorem master_val_getElem_none (M : List (Nat × XlaShape × Val)) (r : Nat)
    (n : Nat) (hw : lastWrite M r = none) (hr : r < n) :
    (applySets (List.replicate n (none : Option Val))
        (M.map fun w => (w.1, some w.2.2)))[r]? = some none := by
  rw [getElem?_applySets (M.map fun w => (w.1, some w.2.2))
      (List.replicate n (none : Option Val)) r (by rw [List.length_replicate]; omega),
    lastWrite_map (fun b : XlaShape × Val => some b.2) M r, hw]
  simp [List.getElem?_replicate, hr]

theorem master_slot_getElem (M : List (Nat × XlaShape × Val)) (r : Nat)
    (sh : XlaShape) (v : Val) (hw : lastWrite M r = some (sh, v)) :
    (applyWrites none [] (M.map fun w => (w.1, some (w.2.1, w.2.2))))[r]?
      = some (some (sh, v)) := by
  rw [getElem?_applyWrites none (M.map fun w => (w.1, some (w.2.1, w.2.2))) [] r,
    lastWrite_map (fun b : XlaShape × Val => some (b.1, b.2)) M r, hw]
  rfl

theorem master_slot_getElem_none (M : List (Nat × XlaShape × Val)) (r : Nat)
    (hw : lastWrite M r = none) (hr : r < streamBound M) :
    (applyWrites none [] (M.map fun w => (w.1, some (w.2.1, w.2.2))))[r]?
      = some none := by
  rw [getElem?_applyWrites none (M.map fun w => (w.1, some (w.2.1, w.2.2))) [] r,
    lastWrite_map (fun b : XlaShape × Val => some (b.1, b.2)) M r, hw,
    streamBound_map (fun b : XlaShape × Val => some (b.1, b.2)) M]
  simp [hr]

theorem xrt_slots_eq_split_slots (vals : List Val) (ops : List ExecuteChainedOp) :
    ((List.range (applyWrites (XlaShape.tuple []) [] (opsShapeStream ops)).length).map
      fun r =>
        ((applySets (List.replicate
            (applyWrites (XlaShape.tuple []) [] (opsShapeStream ops)).length none)
            (opsValStream vals ops 0)).getD r none).map
          fun v => ((applyWrites (XlaShape.tuple []) [] (opsShapeStream ops)).getD r
            (XlaShape.tuple []), v))
    = applyWrites none [] (opsSlotStream vals ops 0) := by
  rw [opsShapeStream_eq_map vals ops 0, opsValStream_eq_map vals ops 0,
    opsSlotStream_eq_map vals ops 0]
  have hL : (applyWrites (XlaShape.tuple [])
      [] ((opsWriteStreamAux vals ops 0).map fun w => (w.1, w.2.1))).length
      = streamBound (opsWriteStreamAux vals ops 0) := by
    rw [length_applyWrites,
      streamBound_map (fun b : XlaShape × Val => b.1) (opsWriteStreamAux vals ops 0)]
    simp
  refine List.ext_getElem? ?_
  intro r
  rw [List.getElem?_map]
  by_cases hr : r < streamBound (opsWriteStreamAux vals ops 0)
  · have hrange : (List.range (applyWrites (XlaShape.tuple [])
        [] ((opsWriteStreamAux vals ops 0).map fun w => (w.1, w.2.1))).length)[r]?
        = some r := by
      rw [hL]
      exact List.getElem?_range hr
    rw [hrange, Option.map_some']
    rcases hlw : lastWrite (opsWriteStreamAux vals ops 0) r with _ | ⟨sh, v⟩
    · have hv0 : (applySets (List.replicate (applyWrites (XlaShape.tuple [])
          [] ((opsWriteStreamAux vals ops 0).map fun w => (w.1, w.2.1))).length none)
          ((opsWriteStreamAux vals ops 0).map fun w => (w.1, some w.2.2))).getD r none
          = none := by
        rw [List.getD_eq_getElem?_getD,
          master_val_getElem_none (opsWriteStreamAux vals ops 0) r _ hlw
            (by rw [hL]; exact hr)]
        rfl
      rw [master_slot_getElem_none (opsWriteStreamAux vals ops 0) r hlw hr, hv0]
      rfl
    · have hvv : (applySets (List.replicate (applyWrites (XlaShape.tuple [])
          [] ((opsWriteStreamAux vals ops 0).map fun w => (w.1, w.2.1))).length none)
          ((opsWriteStreamAux vals ops 0).map fun w => (w.1, some w.2.2))).getD r none
          = some v := by
        rw [List.getD_eq_getElem?_getD,
          master_val_getElem (opsWriteStreamAux vals ops 0) r sh v hlw _
            (by rw [hL]; exact hr)]
        rfl
      have hsh : (applyWrites (XlaShape.tuple [])
          [] ((opsWriteStreamAux vals ops 0).map fun w => (w.1, w.2.1))).getD r
          (XlaShape.tuple []) = sh := by
        rw [List.getD_eq_getElem?_getD,
          master_shape_getElem (opsWriteStreamAux vals ops 0) r sh v hlw]
        rfl
      rw [master_slot_getElem (opsWriteStreamAux vals ops 0) r sh v hlw, hvv, hsh]
      rfl
  · have h1 : (List.range (applyWrites (XlaShape.tuple [])
        [] ((opsWriteStreamAux vals ops 0).map fun w => (w.1, w.2.1))).length)[r]?
        = none :=
      List.getElem?_eq_none (by rw [List.length_range, hL]; omega)
    have h2 : (applyWrites none []
        ((opsWriteStreamAux vals ops 0).map fun w => (w.1, some (w.2.1, w.2.2))))[r]?
        = none :=
      List.getElem?_eq_none (by
        rw [length_applyWrites,
          streamBound_map (fun b : XlaShape × Val => some (b.1, b.2))
            (opsWriteStreamAux vals ops 0)]
        simp
        omega)
    rw [h1, h2]
    rfl

/-- A valid one-op DAG: a computation with tuple result shape whose single
declared output leaves the tuple output index unset. -/
def chainedOpTupleNoIdx : List ExecuteChainedOp :=
  [⟨ChainedSource.computation
      (XlaShape.tuple [XlaShape.array 4 [1], XlaShape.array 4 [2]]) 20,
    [], [⟨0, none⟩]⟩]

/-- A canonical-form two-op DAG: a data op feeding a tuple-shaped
computation whose output names an explicit tuple element. -/
def chainedOpsCanonical : List ExecuteChainedOp :=
  [⟨ChainedSource.data (XlaShape.array 4 [2]) 5, [], [⟨1, none⟩]⟩,
   ⟨ChainedSource.computation
      (XlaShape.tuple [XlaShape.array 4 [1], XlaShape.array 4 [2]]) 20,
    [⟨0, none⟩], [⟨0, some 1⟩]⟩]

/-- C9 counterexample: a valid one-op DAG (every input references a strictly
earlier op — vacuously — and its output index is in range, being unset) on
which the two modes disagree: the computation has a tuple result shape and
its output leaves the tuple index unset, so the single-RPC mode fills the
slot with the whole tuple under the tuple shape, while split mode — which
explodes tuple results into per-element handles and treats an unset index
as element 0 — fills it with the first element under the element shape. -/
theorem chained_modes_diverge :
    chainedSeqInvalid chainedOpTupleNoIdx = false ∧
    executeChainedXrt (fun _ => Val.leaf 0)
        (fun _ _ => Val.tuple [Val.leaf 1, Val.leaf 2]) chainedOpTupleNoIdx
      = (Except.ok [some (XlaShape.tuple [XlaShape.array 4 [1], XlaShape.array 4 [2]],
          Val.tuple [Val.leaf 1, Val.leaf 2])], 1) ∧
    executeChainedSplit (fun _ => Val.leaf 0)
        (fun _ _ => Val.tuple [Val.leaf 1, Val.leaf 2]) chainedOpTupleNoIdx
      = (Except.ok [some (XlaShape.array 4 [1], Val.leaf 1)], 1) :=
  ⟨rfl, rfl, rfl⟩

/-- C9: on canonical-form DAGs — valid references where tuple-shaped
computation outputs are always selected by an explicit in-range element
index and other selections leave the index unset — the two chained modes
satisfy the same external contract: they produce identical result-slot
lists (same length, same shape and value per slot), the single-RPC mode
with exactly one RPC and split mode with one run RPC per computation op.
Outside that regime the modes can disagree on slots fed by a tuple-shaped
op with an unset output index. -/
theorem chained_modes_agree (dataVal : Int → Val) (compFn : Int → List Val → Val)
    (ops : List ExecuteChainedOp) (h : canonicalChained ops = true) :
    ∃ slots, executeChainedXrt dataVal compFn ops = (Except.ok slots, 1) ∧
      executeChainedSplit dataVal compFn ops = (Except.ok slots, compCount ops) := by
  refine ⟨applyWrites none [] (opsSlotStream (chainedVals dataVal compFn ops) ops 0),
    ?_, ?_⟩
  · rw [executeChainedXrt_canonical dataVal compFn ops h,
      xrt_slots_eq_split_slots (chainedVals dataVal compFn ops) ops]
  · exact executeChainedSplit_canonical dataVal compFn ops h

/-- The canonical two-op DAG satisfies the canonical-form check, and both
modes agree on it per `chained_modes_agree`: the same slots, one RPC in
XRT mode and one split-mode RPC for its single computation op. -/
theorem chained_modes_agree_witness :
    canonicalChained chainedOpsCanonical = true ∧
    ∃ slots, executeChainedXrt (fun _ => Val.leaf 3)
        (fun _ vs => Val.tuple [Val.leaf 1, Val.tuple vs]) chainedOpsCanonical
        = (Except.ok slots, 1) ∧
      executeChainedSplit (fun _ => Val.leaf 3)
        (fun _ vs => Val.tuple [Val.leaf 1, Val.tuple vs]) chainedOpsCanonical
        = (Except.ok slots, compCount chainedOpsCanonical) :=
  ⟨rfl, chained_modes_agree (fun _ => Val.leaf 3)
    (fun _ vs => Val.tuple [Val.leaf 1, Val.tuple vs]) chainedOpsCanonical rfl⟩
